import Mathlib

/-!
Verification of the diary-summary pipeline (path classification, grouping,
token-budget batching, retry policy, cache/resume storage, orchestration).

Python strings are modelled as `List Char`; Python dicts of diary entries and
drive files are modelled as structures; the filesystem is modelled as an
association list from structured file keys to file contents.  Machine-level
caveats are noted at each definition: `int(x * 1.3)` is modelled as exact
rational truncation, and Python's Unicode digit classes are modelled as the
ASCII digits actually produced and consumed by this program.
-/

set_option maxHeartbeats 2000000
set_option maxRecDepth 4000

/-- Python strings are modelled as lists of characters. -/
abbrev Str := List Char

/-- Whitespace characters stripped by Python's `str.strip()` (ASCII subset). -/
def isSpaceChar (c : Char) : Bool :=
  c = ' ' || c = '\t' || c = '\n' || c = '\r' || c = '\x0b' || c = '\x0c'

/-- Model of Python `str.lstrip()`. -/
def lstripStr (l : Str) : Str := l.dropWhile isSpaceChar

/-- Model of Python `str.rstrip()`. -/
def rstripStr (l : Str) : Str := (l.reverse.dropWhile isSpaceChar).reverse

/-- Model of Python `str.strip()`. -/
def stripStr (l : Str) : Str := rstripStr (lstripStr l)

/-- Model of Python `str.rstrip(c)` for a single character `c`. -/
def rstripChar (c : Char) (l : Str) : Str := (l.reverse.dropWhile (· = c)).reverse

/-- Index of the first occurrence of `sep` in `l` (Python `str.find`/`str.index`
for a nonempty needle; all needles in this program are nonempty). -/
def findSep (sep : Str) : Str → Option Nat
  | [] => none
  | c :: rest =>
    if sep.isPrefixOf (c :: rest) then some 0 else (findSep sep rest).map (· + 1)

theorem findSep_some_lt {sep l : Str} {i : Nat} (h : findSep sep l = some i) :
    i < l.length := by
  induction l generalizing i with
  | nil => simp [findSep] at h
  | cons c rest ih =>
    simp only [findSep] at h
    split at h
    · cases h; simp
    · rcases Option.map_eq_some'.1 h with ⟨j, hj, rfl⟩
      have := ih hj
      simp; omega

theorem findSep_isPrefixOf {sep l : Str} {i : Nat} (h : findSep sep l = some i) :
    sep.isPrefixOf (l.drop i) = true := by
  induction l generalizing i with
  | nil => simp [findSep] at h
  | cons c rest ih =>
    simp only [findSep] at h
    split at h
    · cases h; simpa using ‹sep.isPrefixOf (c :: rest) = true›
    · rcases Option.map_eq_some'.1 h with ⟨j, hj, rfl⟩
      simpa using ih hj

theorem findSep_none_of_not_mem {sep l : Str} {c : Char} (hc : c ∈ sep) (hl : c ∉ l) :
    findSep sep l = none := by
  cases h : findSep sep l with
  | none => rfl
  | some i =>
    exfalso
    have hpre := findSep_isPrefixOf h
    have : sep <+: l.drop i := List.isPrefixOf_iff_prefix.1 hpre
    exact hl (List.drop_subset i l (this.subset hc))

/-- Characterization used to pin down first-occurrence positions. -/
theorem findSep_eq_some_of {sep l : Str} {i : Nat} (hne : sep ≠ [])
    (hp : sep.isPrefixOf (l.drop i) = true)
    (hmin : ∀ j, j < i → sep.isPrefixOf (l.drop j) = false) :
    findSep sep l = some i := by
  induction l generalizing i with
  | nil =>
    exfalso
    rcases sep with _ | ⟨c, s⟩
    · exact hne rfl
    · simp [List.isPrefixOf] at hp
  | cons c rest ih =>
    simp only [findSep]
    cases i with
    | zero =>
      simp only [List.drop_zero] at hp
      simp [hp]
    | succ j =>
      have h0 : sep.isPrefixOf (c :: rest) = false := by
        have := hmin 0 (Nat.succ_pos j)
        simpa using this
      rw [h0]
      simp only [Bool.false_eq_true, if_false]
      have hrec : findSep sep rest = some j := by
        apply ih
        · simpa using hp
        · intro k hk
          have := hmin (k + 1) (by omega)
          simpa using this
      rw [hrec]; rfl

theorem isPrefixOf_get {sep l : Str} (h : sep.isPrefixOf l = true) {j : Nat}
    (hj : j < sep.length) : l.get? j = sep.get? j := by
  rcases List.isPrefixOf_iff_prefix.1 h with ⟨t, rfl⟩
  exact List.get?_append hj

/-- Fuelled loop of `str.split`; the fuel only needs to dominate the input
length, and is threaded explicitly so that concrete splits compute. -/
def splitGo (sep : Str) : Nat → Str → List Str
  | 0, l => [l]
  | fuel + 1, l =>
    match findSep sep l with
    | none => [l]
    | some i => l.take i :: splitGo sep fuel (l.drop (i + sep.length))

/-- Model of Python `str.split(sep)` for a nonempty separator. -/
def splitOnL (sep : Str) (l : Str) : List Str :=
  if sep.isEmpty then [l] else splitGo sep l.length l

theorem splitGo_congr {sep : Str} (hne : sep ≠ []) :
    ∀ (f1 f2 : Nat) (l : Str), l.length ≤ f1 → l.length ≤ f2 →
      splitGo sep f1 l = splitGo sep f2 l := by
  intro f1
  induction f1 with
  | zero =>
    intro f2 l h1 h2
    have : l = [] := List.length_eq_zero.1 (by omega)
    subst this
    cases f2 with
    | zero => rfl
    | succ f2 => rfl
  | succ f1 ih =>
    intro f2 l h1 h2
    cases f2 with
    | zero =>
      have : l = [] := List.length_eq_zero.1 (by omega)
      subst this
      rfl
    | succ f2 =>
      show (match findSep sep l with
        | none => [l]
        | some i => l.take i :: splitGo sep f1 (l.drop (i + sep.length))) =
        (match findSep sep l with
        | none => [l]
        | some i => l.take i :: splitGo sep f2 (l.drop (i + sep.length)))
      cases h : findSep sep l with
      | none => rfl
      | some i =>
        have hi : i < l.length := findSep_some_lt h
        have hs : 0 < sep.length := List.length_pos.2 hne
        have hd : (l.drop (i + sep.length)).length ≤ f1 := by
          simp only [List.length_drop]; omega
        have hd2 : (l.drop (i + sep.length)).length ≤ f2 := by
          simp only [List.length_drop]; omega
        simp only [ih _ _ hd hd2]

theorem splitOnL_of_none {sep l : Str} (hne : sep ≠ []) (h : findSep sep l = none) :
    splitOnL sep l = [l] := by
  rw [splitOnL, if_neg (by simp [hne])]
  cases hl : l.length with
  | zero => rfl
  | succ k =>
    show (match findSep sep l with
      | none => [l]
      | some i => l.take i :: splitGo sep k (l.drop (i + sep.length))) = [l]
    rw [h]

theorem splitOnL_of_some {sep l : Str} {i : Nat} (hne : sep ≠ [])
    (h : findSep sep l = some i) :
    splitOnL sep l = l.take i :: splitOnL sep (l.drop (i + sep.length)) := by
  have hi : i < l.length := findSep_some_lt h
  have hs : 0 < sep.length := List.length_pos.2 hne
  rw [splitOnL, splitOnL, if_neg (by simp [hne]), if_neg (by simp [hne])]
  obtain ⟨k, hk⟩ : ∃ k, l.length = k + 1 := ⟨l.length - 1, by omega⟩
  rw [hk]
  show (match findSep sep l with
    | none => [l]
    | some i => l.take i :: splitGo sep k (l.drop (i + sep.length))) = _
  rw [h]
  show l.take i :: splitGo sep k (l.drop (i + sep.length)) = _
  have : splitGo sep k (l.drop (i + sep.length)) =
      splitGo sep (l.drop (i + sep.length)).length (l.drop (i + sep.length)) := by
    apply splitGo_congr hne
    · simp only [List.length_drop]; omega
    · exact Nat.le_refl _
  rw [this]

/-! ## Token estimator (`summarizer.estimate_tokens`) -/

/-- Character class of the regex `[一-鿿]` in `estimate_tokens`. -/
def isChineseChar (c : Char) : Bool := 0x4e00 ≤ c.toNat && c.toNat ≤ 0x9fff

/-- Character class of the regex `[a-zA-Z]` in `estimate_tokens`. -/
def isEnglishLetter (c : Char) : Bool := ('a' ≤ c && c ≤ 'z') || ('A' ≤ c && c ≤ 'Z')

/-- Number of characters matched by `re.findall(r'[一-鿿]', text)`. -/
def countChinese (l : Str) : Nat := (l.filter isChineseChar).length

/-- Number of maximal `[a-zA-Z]+` runs, i.e. `len(re.findall(r'[a-zA-Z]+', text))`;
the boolean argument records whether the previous character was a letter. -/
def countEnglishWords : Str → Bool → Nat
  | [], _ => 0
  | c :: rest, prev =>
    (if isEnglishLetter c && !prev then 1 else 0) + countEnglishWords rest (isEnglishLetter c)

/-- Model of `estimate_tokens`; `int(english_words * 1.3)` is modelled as the
exact truncation `english_words * 13 / 10`. -/
def estimate_tokens (l : Str) : Nat :=
  countChinese l + countEnglishWords l false * 13 / 10

/-- Letter-run state after scanning `l` starting from state `prev`. -/
def lastLetterState (prev : Bool) : Str → Bool
  | [] => prev
  | c :: rest => lastLetterState (isEnglishLetter c) rest

theorem countEnglishWords_append (a b : Str) (prev : Bool) :
    countEnglishWords (a ++ b) prev =
      countEnglishWords a prev + countEnglishWords b (lastLetterState prev a) := by
  induction a generalizing prev with
  | nil => simp [countEnglishWords, lastLetterState]
  | cons c rest ih =>
    simp [countEnglishWords, lastLetterState, ih]
    omega

theorem countEnglishWords_eq_zero {l : Str} (h : ∀ c ∈ l, isEnglishLetter c = false) :
    ∀ prev, countEnglishWords l prev = 0 := by
  induction l with
  | nil => intro prev; rfl
  | cons c rest ih =>
    intro prev
    have hc : isEnglishLetter c = false := h c (List.mem_cons_self c rest)
    simp [countEnglishWords, hc]
    exact ih (fun d hd => h d (List.mem_cons_of_mem c hd)) false

theorem countChinese_eq_zero {l : Str} (h : ∀ c ∈ l, isChineseChar c = false) :
    countChinese l = 0 := by
  simp only [countChinese, List.length_eq_zero]
  rw [List.filter_eq_nil]
  intro a ha
  simp [h a ha]

/-! ## Diary entries and the batcher (`summarizer.split_diaries_into_batches`) -/

/-- Model of the diary dict built by the orchestrator and the raw-text loader.
The `path` key is optional because every consumer defensively reads
`diary.get('path', diary['filename'])`. -/
structure Diary where
  filename : Str
  path : Option Str
  content : Str
  created_time : Str
  modified_time : Str
deriving DecidableEq

/-- Model of `diary.get('path', diary['filename'])`. -/
def diaryPath (d : Diary) : Str := d.path.getD d.filename

/-- Per-entry text whose estimate the batcher accumulates:
`f"=== {diary.get('path', diary['filename'])} ===\n{diary['content']}"`. -/
def diaryHeaderText (d : Diary) : Str :=
  "=== ".toList ++ diaryPath d ++ " ===\n".toList ++ d.content

/-- Estimated token cost of one entry inside the batcher. -/
def diaryTokens (d : Diary) : Nat := estimate_tokens (diaryHeaderText d)

/-- Loop body of `split_diaries_into_batches`: `cur`/`curTok` are the running
batch and its cumulative estimate. -/
def splitBatchesGo (max_tokens : Nat) : List Diary → List Diary → Nat → List (List Diary)
  | [], cur, _ => if cur.isEmpty then [] else [cur]
  | d :: rest, cur, curTok =>
    let t := diaryTokens d
    if curTok + t > max_tokens && !cur.isEmpty then
      cur :: splitBatchesGo max_tokens rest [d] t
    else
      splitBatchesGo max_tokens rest (cur ++ [d]) (curTok + t)

/-- Model of `split_diaries_into_batches(diaries, max_tokens)` (the Python
default for `max_tokens` is 25000). -/
def split_diaries_into_batches (diaries : List Diary) (max_tokens : Nat) : List (List Diary) :=
  splitBatchesGo max_tokens diaries [] 0

/-- Cumulative per-entry token estimate of a batch. -/
def batchTokens (b : List Diary) : Nat := (b.map diaryTokens).sum

theorem splitBatchesGo_inv (B : Nat) (rest : List Diary) :
    ∀ (cur : List Diary) (curTok : Nat), curTok = batchTokens cur →
    (2 ≤ cur.length → curTok ≤ B) →
    (∀ b ∈ splitBatchesGo B rest cur curTok, 2 ≤ b.length → batchTokens b ≤ B)
      ∧ (splitBatchesGo B rest cur curTok).join = cur ++ rest := by
  induction rest with
  | nil =>
    intro cur curTok hTok hcur
    constructor
    · intro b hb hlen
      by_cases hc : cur.isEmpty
      · simp [splitBatchesGo, hc] at hb
      · simp [splitBatchesGo, hc] at hb
        subst hb; rw [← hTok]; exact hcur hlen
    · by_cases hc : cur.isEmpty
      · simp [splitBatchesGo, hc, List.isEmpty_iff.1 hc]
      · simp [splitBatchesGo, hc]
  | cons d rest ih =>
    intro cur curTok hTok hcur
    simp only [splitBatchesGo]
    by_cases hcond : (curTok + diaryTokens d > B && !cur.isEmpty) = true
    · rw [if_pos hcond]
      have hrec := ih [d] (diaryTokens d) (by simp [batchTokens]) (by intro h; simp at h)
      constructor
      · intro b hb hlen
        rcases List.mem_cons.1 hb with rfl | hb'
        · rw [← hTok]
          exact hcur hlen
        · exact hrec.1 b hb' hlen
      · simp [hrec.2]
    · rw [if_neg hcond]
      have hnew : curTok + diaryTokens d = batchTokens (cur ++ [d]) := by
        simp [batchTokens, hTok]
      have hbound : 2 ≤ (cur ++ [d]).length → curTok + diaryTokens d ≤ B := by
        intro hlen
        by_cases hemp : cur.isEmpty
        · exfalso
          rw [List.isEmpty_iff.1 hemp] at hlen
          simp at hlen
        · have : ¬ (curTok + diaryTokens d > B) := by
            intro hgt
            exact hcond (by simp [hgt, hemp])
          omega
      have hrec := ih (cur ++ [d]) (curTok + diaryTokens d) hnew hbound
      exact ⟨hrec.1, by simp [hrec.2]⟩

/-- C9: text containing neither a CJK character in U+4E00–U+9FFF nor an ASCII
letter estimates to 0 tokens, and appending such text to any prefix leaves the
estimate of the prefix unchanged, so it contributes nothing to the batcher's
cumulative estimate. -/
theorem estimate_tokens_sparse_zero (content : Str)
    (h : ∀ c ∈ content, isChineseChar c = false ∧ isEnglishLetter c = false) :
    estimate_tokens content = 0 ∧
      ∀ pre : Str, estimate_tokens (pre ++ content) = estimate_tokens pre := by
  have hch : countChinese content = 0 := countChinese_eq_zero (fun c hc => (h c hc).1)
  have hen : ∀ prev, countEnglishWords content prev = 0 :=
    countEnglishWords_eq_zero (fun c hc => (h c hc).2)
  constructor
  · simp [estimate_tokens, hch, hen false]
  · intro pre
    unfold estimate_tokens
    have h1 : countChinese (pre ++ content) = countChinese pre := by
      unfold countChinese
      rw [List.filter_append]
      have hnil : content.filter isChineseChar = [] := by
        rw [List.filter_eq_nil_iff]
        intro a ha; simp [(h a ha).1]
      rw [hnil, List.append_nil]
    have h2 : countEnglishWords (pre ++ content) false = countEnglishWords pre false := by
      rw [countEnglishWords_append, hen, Nat.add_zero]
    rw [h1, h2]

/-- Witness for C9 at a concrete digits-and-punctuation text. -/
theorem estimate_tokens_sparse_zero_witness :
    estimate_tokens ("12345, 67.89!?".toList) = 0 ∧
      estimate_tokens ("ab 中".toList ++ "12345, 67.89!?".toList) =
        estimate_tokens ("ab 中".toList) :=
  ⟨(estimate_tokens_sparse_zero ("12345, 67.89!?".toList) (by decide)).1,
   (estimate_tokens_sparse_zero ("12345, 67.89!?".toList) (by decide)).2 ("ab 中".toList)⟩

/-- C2: every batch produced by `split_diaries_into_batches` that holds at
least two entries has cumulative per-entry estimate at most the budget, and
concatenating the batches in order reproduces the input list exactly. -/
theorem split_diaries_into_batches_sound (diaries : List Diary) (B : Nat) :
    (∀ b ∈ split_diaries_into_batches diaries B, 2 ≤ b.length → batchTokens b ≤ B)
      ∧ (split_diaries_into_batches diaries B).join = diaries := by
  have := splitBatchesGo_inv B diaries [] 0 (by simp [batchTokens]) (by intro h; simp at h)
  simpa [split_diaries_into_batches] using this

/-- Two tiny concrete diaries used in witnesses. -/
def diaryA : Diary :=
  ⟨"a".toList, some ("2023年/2023年1月/1日".toList), "hello world 今天".toList, [], []⟩

/-- Second concrete diary used in witnesses. -/
def diaryB : Diary :=
  ⟨"b".toList, some ("2023年/2023年1月/2日".toList), "rain 下雨".toList, [], []⟩

/-- Witness for C2: with a budget of 1000 both diaries fall into one batch of
length two whose estimate respects the budget, and the batches concatenate
back to the input. -/
theorem split_diaries_into_batches_sound_witness :
    batchTokens [diaryA, diaryB] ≤ 1000 ∧
      (split_diaries_into_batches [diaryA, diaryB] 1000).join = [diaryA, diaryB] :=
  ⟨(split_diaries_into_batches_sound [diaryA, diaryB] 1000).1 [diaryA, diaryB]
      (by decide) (by decide),
   (split_diaries_into_batches_sound [diaryA, diaryB] 1000).2⟩

/-! ## Natural sort key (`parsers.natural_sort_key`) -/

theorem length_dropWhile_le (p : Char → Bool) (l : Str) :
    (l.dropWhile p).length ≤ l.length := by
  induction l with
  | nil => simp
  | cons c rest ih =>
    by_cases h : p c
    · simp [List.dropWhile_cons, h]; omega
    · simp [List.dropWhile_cons, h]

theorem dropWhile_head_false {p : Char → Bool} {l : Str} {c : Char} {rest : Str}
    (h : l.dropWhile p = c :: rest) : p c = false := by
  induction l with
  | nil => cases h
  | cons a t ih =>
    by_cases ha : p a
    · rw [List.dropWhile_cons, if_pos ha] at h
      exact ih h
    · rw [List.dropWhile_cons, if_neg ha] at h
      cases h
      exact Bool.not_eq_true _ ▸ ha

/-- Model of `re.split(r'(\\d+)', text)`: the alternating list of non-digit and
digit runs, beginning and ending with a possibly empty non-digit run.
Python's `\\d` is modelled as the ASCII digits. -/
def splitDigitRuns (l : Str) : List Str :=
  match hr : l.dropWhile (fun c => !c.isDigit) with
  | [] => [l.takeWhile (fun c => !c.isDigit)]
  | c :: rest =>
    l.takeWhile (fun c => !c.isDigit) :: (c :: rest).takeWhile Char.isDigit
      :: splitDigitRuns ((c :: rest).dropWhile Char.isDigit)
termination_by l.length
decreasing_by
  have hc : (fun c => !c.isDigit) c = false := dropWhile_head_false hr
  have hc' : c.isDigit = true := by simpa using hc
  have h1 : (c :: rest).length ≤ l.length := by
    rw [← hr]; exact length_dropWhile_le _ l
  rw [List.dropWhile_cons, if_pos hc']
  have h2 := length_dropWhile_le Char.isDigit rest
  simp only [List.length_cons] at h1
  omega

/-- Model of Python `str.isdigit()` on the ASCII repertoire: nonempty and all
digits. -/
def pyIsDigit (l : Str) : Bool := !l.isEmpty && l.all Char.isDigit

/-- Model of Python `str.lower()`. -/
def toLowerStr (l : Str) : Str := l.map Char.toLower

/-- Model of Python `int(s)` for a string of ASCII digits. -/
def digitsToNat (l : Str) : Nat := l.foldl (fun a c => 10 * a + (c.toNat - 48)) 0

/-- Element of a natural-sort key: either an integer (from a digit run) or a
lowercased string (from a non-digit run). -/
inductive SortKeyElem where
  | num (n : Nat)
  | str (s : Str)
deriving DecidableEq

/-- Model of the `convert` closure inside `natural_sort_key`. -/
def convertPart (p : Str) : SortKeyElem :=
  if pyIsDigit p then .num (digitsToNat p) else .str (toLowerStr p)

/-- Model of `natural_sort_key`. -/
def natural_sort_key (l : Str) : List SortKeyElem :=
  (splitDigitRuns l).map convertPart

/-- Alternation of parts: with flag `true` the next part must fail
`str.isdigit()`, with flag `false` it must pass it. -/
def AltParts : Bool → List Str → Prop
  | _, [] => True
  | true, p :: rest => pyIsDigit p = false ∧ AltParts false rest
  | false, p :: rest => pyIsDigit p = true ∧ AltParts true rest

theorem pyIsDigit_takeWhile_nondigit (l : Str) :
    pyIsDigit (l.takeWhile (fun c => !c.isDigit)) = false := by
  cases ha : l.takeWhile (fun c => !c.isDigit) with
  | nil => rfl
  | cons x xs =>
    have hx : x ∈ l.takeWhile (fun c => !c.isDigit) := by
      rw [ha]; exact List.mem_cons_self x xs
    have hx' : x.isDigit = false := by
      simpa using List.mem_takeWhile_imp hx
    simp [pyIsDigit, List.all_cons, hx']

theorem pyIsDigit_takeWhile_digit {c : Char} (rest : Str) (hc : c.isDigit = true) :
    pyIsDigit ((c :: rest).takeWhile Char.isDigit) = true := by
  have hne : ((c :: rest).takeWhile Char.isDigit).isEmpty = false := by
    rw [List.takeWhile_cons, if_pos hc]
    rfl
  have hall : ((c :: rest).takeWhile Char.isDigit).all Char.isDigit = true := by
    rw [List.all_eq_true]
    intro x hx
    exact List.mem_takeWhile_imp hx
  simp [pyIsDigit, hne, hall]

theorem splitDigitRuns_alt_aux : ∀ (n : Nat) (l : Str), l.length ≤ n →
    AltParts true (splitDigitRuns l) := by
  intro n
  induction n with
  | zero =>
    intro l hl
    have he : l = [] := List.length_eq_zero.1 (Nat.le_zero.1 hl)
    subst he
    rw [splitDigitRuns]
    exact ⟨by rfl, trivial⟩
  | succ n ih =>
    intro l hl
    rw [splitDigitRuns]
    split
    · exact ⟨pyIsDigit_takeWhile_nondigit l, trivial⟩
    · rename_i c rest hr
      have hc : (fun c => !c.isDigit) c = false := dropWhile_head_false hr
      have hc' : c.isDigit = true := by simpa using hc
      refine ⟨pyIsDigit_takeWhile_nondigit l, pyIsDigit_takeWhile_digit rest hc', ?_⟩
      apply ih
      have h1 : (c :: rest).length ≤ l.length := by
        rw [← hr]; exact length_dropWhile_le _ l
      have h2 : ((c :: rest).dropWhile Char.isDigit).length ≤ rest.length := by
        rw [List.dropWhile_cons, if_pos hc']
        exact length_dropWhile_le Char.isDigit rest
      simp only [List.length_cons] at h1
      omega

theorem splitDigitRuns_alt (l : Str) : AltParts true (splitDigitRuns l) :=
  splitDigitRuns_alt_aux l.length l (Nat.le_refl _)

/-- Alternation of key elements: with flag `true` the next element must be a
string, with flag `false` an integer. -/
def AltKey : Bool → List SortKeyElem → Prop
  | _, [] => True
  | true, .str _ :: rest => AltKey false rest
  | true, .num _ :: _ => False
  | false, .num _ :: rest => AltKey true rest
  | false, .str _ :: _ => False

theorem altKey_of_altParts {f : Bool} {ps : List Str} (h : AltParts f ps) :
    AltKey f (ps.map convertPart) := by
  induction ps generalizing f with
  | nil =>
    simp only [List.map_nil]
    cases f <;> trivial
  | cons p rest ih =>
    cases f with
    | true =>
      rcases h with ⟨hp, hrest⟩
      simp only [List.map_cons]
      rw [convertPart, if_neg (by simp [hp])]
      exact ih hrest
    | false =>
      rcases h with ⟨hp, hrest⟩
      simp only [List.map_cons]
      rw [convertPart, if_pos hp]
      exact ih hrest

/-- Lexicographic comparison of two character lists (a total order on strings,
standing in for Python's string comparison). -/
def lexCompareStr : Str → Str → Ordering
  | [], [] => .eq
  | [], _ :: _ => .lt
  | _ :: _, [] => .gt
  | a :: as, b :: bs =>
    match compare a b with
    | .eq => lexCompareStr as bs
    | o => o

/-- Comparison of two key elements; `none` models Python raising `TypeError`
on an integer-versus-string comparison. -/
def compareElem : SortKeyElem → SortKeyElem → Option Ordering
  | .num a, .num b => some (compare a b)
  | .str a, .str b => some (lexCompareStr a b)
  | _, _ => none

/-- Lexicographic comparison of two keys, propagating a `TypeError`. -/
def compareKeys : List SortKeyElem → List SortKeyElem → Option Ordering
  | [], [] => some .eq
  | [], _ :: _ => some .lt
  | _ :: _, [] => some .gt
  | x :: xs, y :: ys =>
    match compareElem x y with
    | none => none
    | some .eq => compareKeys xs ys
    | some o => some o

theorem compareKeys_isSome {f : Bool} :
    ∀ (k1 k2 : List SortKeyElem), AltKey f k1 → AltKey f k2 →
      (compareKeys k1 k2).isSome = true := by
  intro k1
  induction k1 generalizing f with
  | nil =>
    intro k2 _ _
    cases k2 <;> rfl
  | cons x xs ih =>
    intro k2 h1 h2
    cases k2 with
    | nil => rfl
    | cons y ys =>
      cases f with
      | true =>
        cases x with
        | num n => exact absurd h1 (by simp [AltKey])
        | str s =>
          cases y with
          | num m => exact absurd h2 (by simp [AltKey])
          | str t =>
            simp only [compareKeys, compareElem]
            cases h : lexCompareStr s t with
            | eq => exact @ih false ys h1 h2
            | lt => rfl
            | gt => rfl
      | false =>
        cases x with
        | str s => exact absurd h1 (by simp [AltKey])
        | num n =>
          cases y with
          | str t => exact absurd h2 (by simp [AltKey])
          | num m =>
            simp only [compareKeys, compareElem]
            cases h : compare n m with
            | eq => exact @ih true ys h1 h2
            | lt => rfl
            | gt => rfl

/-- C10: every natural sort key alternates string elements at even positions
with integer elements at odd positions, so any two keys are element-wise
comparable and sorting by this key can never hit an integer-versus-string
comparison failure. -/
theorem natural_sort_key_comparable (s t : Str) :
    AltKey true (natural_sort_key s) ∧
      (compareKeys (natural_sort_key s) (natural_sort_key t)).isSome = true :=
  ⟨altKey_of_altParts (splitDigitRuns_alt s),
   compareKeys_isSome _ _ (altKey_of_altParts (splitDigitRuns_alt s))
     (altKey_of_altParts (splitDigitRuns_alt t))⟩

/-! ## Path classifiers (`parsers.extract_year_from_path`,
`parsers.extract_year_month_from_path`) -/

/-- Model of matching the regex fragment `(\d{4})` at the current position:
exactly four digit characters, returned together with the remaining input. -/
def matchDigits4 : Str → Option (Str × Str)
  | a :: b :: c :: d :: rest =>
    if a.isDigit && b.isDigit && c.isDigit && d.isDigit then
      some ([a, b, c, d], rest)
    else none
  | _ => none

/-- Model of matching the greedy regex fragment `(\d{1,2})T` at the current
position, where `term` recognizes the terminator `T`: try two digits then the
terminator, backtracking to one digit. Returns the captured month value. -/
def matchMonthThen (term : Char → Bool) : Str → Option Nat
  | [] => none
  | a :: rest =>
    if a.isDigit then
      match rest with
      | [] => none
      | b :: rest2 =>
        if b.isDigit then
          match rest2 with
          | c :: _ =>
            if term c then some (digitsToNat [a, b])
            else if term b then some (digitsToNat [a]) else none
          | [] => if term b then some (digitsToNat [a]) else none
        else if term b then some (digitsToNat [a]) else none
    else none

/-- Model of `re.search`: scan positions left to right, returning the first
position's match (every pattern in this program matches at least one
character, so trying the empty final position is harmless). -/
def searchStr {α : Type} (m : Str → Option α) : Str → Option α
  | [] => m []
  | c :: rest =>
    match m (c :: rest) with
    | some r => some r
    | none => searchStr m rest

/-- Pattern `(\d{4})年` at one position. -/
def matchY1At (l : Str) : Option Nat :=
  match matchDigits4 l with
  | some (ds, c :: _) => if c = '年' then some (digitsToNat ds) else none
  | _ => none

/-- Anchored pattern `^(\d{4})/` (only ever applied at the string start). -/
def matchY2At (l : Str) : Option Nat :=
  match matchDigits4 l with
  | some (ds, c :: _) => if c = '/' then some (digitsToNat ds) else none
  | _ => none

/-- Pattern `/(\d{4})/` at one position. -/
def matchY3At : Str → Option Nat
  | [] => none
  | c :: rest =>
    if c = '/' then
      match matchDigits4 rest with
      | some (ds, c2 :: _) => if c2 = '/' then some (digitsToNat ds) else none
      | _ => none
    else none

/-- Pattern `(\d{4})[-_]` at one position. -/
def matchY4At (l : Str) : Option Nat :=
  match matchDigits4 l with
  | some (ds, c :: _) => if c = '-' || c = '_' then some (digitsToNat ds) else none
  | _ => none

/-- Pattern `(\d{4})` at one position. -/
def matchY5At (l : Str) : Option Nat :=
  match matchDigits4 l with
  | some (ds, _) => some (digitsToNat ds)
  | _ => none

/-- Year range check `1900 <= year <= 2100`. -/
def validYear (y : Nat) : Bool := 1900 ≤ y && y ≤ 2100

/-- Cascade over the ordered pattern results: the first pattern that matched is
validated; an out-of-range match falls through to the next pattern. -/
def yearCascade : List (Option Nat) → Option Nat
  | [] => none
  | none :: rest => yearCascade rest
  | some y :: rest => if validYear y then some y else yearCascade rest

/-- Model of `extract_year_from_path`. -/
def extract_year_from_path (l : Str) : Option Nat :=
  yearCascade [searchStr matchY1At l, matchY2At l, searchStr matchY3At l,
    searchStr matchY4At l, searchStr matchY5At l]

/-- Pattern `(\d{4})年(\d{1,2})月` at one position. -/
def matchP1At (l : Str) : Option (Nat × Nat) :=
  match matchDigits4 l with
  | some (ds, c :: rest2) =>
    if c = '年' then
      (matchMonthThen (fun x => x = '月') rest2).map (fun m => (digitsToNat ds, m))
    else none
  | _ => none

/-- Pattern matching four digits, a slash or dash, one or two digits, then a
slash or dash, at one position. -/
def matchP2At (l : Str) : Option (Nat × Nat) :=
  match matchDigits4 l with
  | some (ds, c :: rest2) =>
    if c = '/' || c = '-' then
      (matchMonthThen (fun x => x = '/' || x = '-') rest2).map (fun m => (digitsToNat ds, m))
    else none
  | _ => none

/-- Pattern `(\d{4})年/(\d{1,2})月` at one position. -/
def matchP3At (l : Str) : Option (Nat × Nat) :=
  match matchDigits4 l with
  | some (ds, c :: c2 :: rest2) =>
    if c = '年' then
      if c2 = '/' then
        (matchMonthThen (fun x => x = '月') rest2).map (fun m => (digitsToNat ds, m))
      else none
    else none
  | _ => none

/-- Year and month range check. -/
def validYM (y m : Nat) : Bool := validYear y && 1 ≤ m && m ≤ 12

/-- Cascade over the ordered year-month pattern results. -/
def ymCascade : List (Option (Nat × Nat)) → Option (Nat × Nat)
  | [] => none
  | none :: rest => ymCascade rest
  | some p :: rest => if validYM p.1 p.2 then some p else ymCascade rest

/-- Model of `extract_year_month_from_path`. -/
def extract_year_month_from_path (l : Str) : Option Nat × Option Nat :=
  match ymCascade [searchStr matchP1At l, searchStr matchP2At l, searchStr matchP3At l] with
  | some (y, m) => (some y, some m)
  | none =>
    match extract_year_from_path l with
    | some y => (some y, none)
    | none => (none, none)

/-- Four consecutive digit characters occur somewhere in the string. -/
def has4Digits : Str → Bool
  | a :: b :: c :: d :: rest =>
    (a.isDigit && b.isDigit && c.isDigit && d.isDigit) || has4Digits (b :: c :: d :: rest)
  | _ => false

theorem has4_cons (c : Char) {t : Str} (h : has4Digits t = true) :
    has4Digits (c :: t) = true := by
  rcases t with _ | ⟨w, _ | ⟨x, _ | ⟨y, _ | ⟨z, r⟩⟩⟩⟩
  · simp [has4Digits] at h
  · simp [has4Digits] at h
  · simp [has4Digits] at h
  · simp [has4Digits] at h
  · show (_ || has4Digits (w :: x :: y :: z :: r)) = true
    rw [h, Bool.or_true]

theorem matchDigits4_has4 {l : Str} {p : Str × Str} (h : matchDigits4 l = some p) :
    has4Digits l = true := by
  rcases l with _ | ⟨a, _ | ⟨b, _ | ⟨c, _ | ⟨d, r⟩⟩⟩⟩ <;>
    simp only [matchDigits4] at h
  · cases h
  · cases h
  · cases h
  · cases h
  · split at h
    · rename_i hd
      show (_ || _) = true
      rw [hd, Bool.true_or]
    · cases h

theorem matchY1At_has4 {l : Str} {y : Nat} (h : matchY1At l = some y) :
    has4Digits l = true := by
  unfold matchY1At at h
  cases hd : matchDigits4 l with
  | none => rw [hd] at h; cases h
  | some p => exact matchDigits4_has4 hd

theorem matchY2At_has4 {l : Str} {y : Nat} (h : matchY2At l = some y) :
    has4Digits l = true := by
  unfold matchY2At at h
  cases hd : matchDigits4 l with
  | none => rw [hd] at h; cases h
  | some p => exact matchDigits4_has4 hd

theorem matchY3At_has4 {l : Str} {y : Nat} (h : matchY3At l = some y) :
    has4Digits l = true := by
  cases l with
  | nil => simp [matchY3At] at h
  | cons c rest =>
    by_cases hc : c = '/'
    · cases hd : matchDigits4 rest with
      | none =>
        rw [show matchY3At (c :: rest) = (if c = '/' then
              match matchDigits4 rest with
              | some (ds, c2 :: _) => if c2 = '/' then some (digitsToNat ds) else none
              | _ => none
            else none) from rfl, if_pos hc, hd] at h
        simp at h
      | some p => exact has4_cons c (matchDigits4_has4 hd)
    · rw [show matchY3At (c :: rest) = (if c = '/' then
            match matchDigits4 rest with
            | some (ds, c2 :: _) => if c2 = '/' then some (digitsToNat ds) else none
            | _ => none
          else none) from rfl, if_neg hc] at h
      cases h

theorem matchY4At_has4 {l : Str} {y : Nat} (h : matchY4At l = some y) :
    has4Digits l = true := by
  unfold matchY4At at h
  cases hd : matchDigits4 l with
  | none => rw [hd] at h; cases h
  | some p => exact matchDigits4_has4 hd

theorem matchY5At_has4 {l : Str} {y : Nat} (h : matchY5At l = some y) :
    has4Digits l = true := by
  unfold matchY5At at h
  cases hd : matchDigits4 l with
  | none => rw [hd] at h; cases h
  | some p => exact matchDigits4_has4 hd

theorem searchStr_has4 {α : Type} {m : Str → Option α}
    (hm : ∀ t r, m t = some r → has4Digits t = true) :
    ∀ {l : Str} {r : α}, searchStr m l = some r → has4Digits l = true := by
  intro l
  induction l with
  | nil => intro r h; exact hm [] r h
  | cons c rest ih =>
    intro r h
    unfold searchStr at h
    cases hc : m (c :: rest) with
    | some v => exact hm _ v hc
    | none =>
      rw [hc] at h
      exact has4_cons c (ih h)

theorem searchStr_none_of_no4 {α : Type} {m : Str → Option α} {l : Str}
    (hm : ∀ t r, m t = some r → has4Digits t = true)
    (h4 : has4Digits l = false) : searchStr m l = none := by
  cases hs : searchStr m l with
  | none => rfl
  | some r =>
    have := searchStr_has4 hm hs
    rw [this] at h4; cases h4

theorem yearCascade_valid : ∀ (os : List (Option Nat)) (y : Nat),
    yearCascade os = some y → validYear y = true := by
  intro os
  induction os with
  | nil => intro y h; cases h
  | cons o rest ih =>
    intro y h
    cases o with
    | none => exact ih y h
    | some z =>
      unfold yearCascade at h
      split at h
      · cases h; assumption
      · exact ih y h

/-- C8: `extract_year_from_path` only ever returns a year in [1900, 2100] (it
is a total function, so it never raises), and on any path containing no four
consecutive digits it returns no value. -/
theorem extract_year_from_path_sound (l : Str) :
    (∀ y, extract_year_from_path l = some y → 1900 ≤ y ∧ y ≤ 2100) ∧
      (has4Digits l = false → extract_year_from_path l = none) := by
  constructor
  · intro y h
    have := yearCascade_valid _ y h
    simpa [validYear] using this
  · intro h4
    have h1 : searchStr matchY1At l = none :=
      searchStr_none_of_no4 (fun t r h => matchY1At_has4 h) h4
    have h2 : matchY2At l = none := by
      cases hm : matchY2At l with
      | none => rfl
      | some y =>
        have := matchY2At_has4 hm
        rw [this] at h4; cases h4
    have h3 : searchStr matchY3At l = none :=
      searchStr_none_of_no4 (fun t r h => matchY3At_has4 h) h4
    have h5 : searchStr matchY4At l = none :=
      searchStr_none_of_no4 (fun t r h => matchY4At_has4 h) h4
    have h6 : searchStr matchY5At l = none :=
      searchStr_none_of_no4 (fun t r h => matchY5At_has4 h) h4
    unfold extract_year_from_path
    rw [h1, h2, h3, h5, h6]
    rfl

/-- Witness for C8 at two concrete paths: a path with a marked year is
extracted inside the valid range, and a digit-free path yields no year. -/
theorem extract_year_from_path_sound_witness :
    (1900 ≤ 2024 ∧ 2024 ≤ 2100) ∧ extract_year_from_path ("abc/def".toList) = none :=
  ⟨(extract_year_from_path_sound ("2024年1月".toList)).1 2024 (by decide),
   (extract_year_from_path_sound ("abc/def".toList)).2 (by decide)⟩

/-- C5: a path beginning with a four-digit year, the marker 年, a one-or-two
digit month, and the marker 月 — with the year in [1900, 2100] and the month in
[1, 12] — classifies to exactly that (year, month) pair. -/
theorem extract_year_month_from_path_exact
    (ds ms rest : Str) (N M : Nat)
    (hds : ∀ c ∈ ds, c.isDigit = true) (hdl : ds.length = 4)
    (hms : ∀ c ∈ ms, c.isDigit = true) (hml : ms.length = 1 ∨ ms.length = 2)
    (hN : digitsToNat ds = N) (hM : digitsToNat ms = M)
    (hNr : 1900 ≤ N ∧ N ≤ 2100) (hMr : 1 ≤ M ∧ M ≤ 12) :
    extract_year_month_from_path (ds ++ '年' :: (ms ++ '月' :: rest)) = (some N, some M) := by
  rcases ds with _ | ⟨a, _ | ⟨b, _ | ⟨c, _ | ⟨d, tail⟩⟩⟩⟩ <;> simp only [List.length_cons,
    List.length_nil] at hdl <;> try omega
  have htail : tail = [] := List.length_eq_zero.1 (by omega)
  subst htail
  have ha : a.isDigit = true := hds a (by simp)
  have hb : b.isDigit = true := hds b (by simp)
  have hc : c.isDigit = true := hds c (by simp)
  have hd4 : d.isDigit = true := hds d (by simp)
  have hny : ('年' : Char).isDigit = false := by decide
  have hyy : ('月' : Char).isDigit = false := by decide
  have hmd4 : matchDigits4 ([a, b, c, d] ++ '年' :: (ms ++ '月' :: rest)) =
      some ([a, b, c, d], '年' :: (ms ++ '月' :: rest)) := by
    simp [matchDigits4, ha, hb, hc, hd4]
  have hmonth : matchMonthThen (fun x => x = '月') (ms ++ '月' :: rest) = some M := by
    rcases hml with h1 | h2
    · rcases ms with _ | ⟨m1, _ | ⟨m1', t⟩⟩ <;> simp only [List.length_cons,
        List.length_nil] at h1 <;> try omega
      have hm1 : m1.isDigit = true := hms m1 (by simp)
      simp [matchMonthThen, hm1, hyy, hM]
    · rcases ms with _ | ⟨m1, _ | ⟨m2, _ | ⟨m2', t⟩⟩⟩ <;> simp only [List.length_cons,
        List.length_nil] at h2 <;> try omega
      have hm1 : m1.isDigit = true := hms m1 (by simp)
      have hm2 : m2.isDigit = true := hms m2 (by simp)
      simp [matchMonthThen, hm1, hm2, hyy, hM]
  have hp1 : matchP1At ([a, b, c, d] ++ '年' :: (ms ++ '月' :: rest)) = some (N, M) := by
    rw [matchP1At, hmd4]
    simp [hmonth, hN]
  have hsearch : searchStr matchP1At ([a, b, c, d] ++ '年' :: (ms ++ '月' :: rest)) =
      some (N, M) := by
    rw [show ([a, b, c, d] ++ '年' :: (ms ++ '月' :: rest)) =
      a :: (b :: c :: d :: '年' :: (ms ++ '月' :: rest)) from rfl] at hp1 ⊢
    unfold searchStr
    rw [hp1]
  have hvalid : validYM N M = true := by
    simp only [validYM, validYear, Bool.and_eq_true, decide_eq_true_eq]
    omega
  have hcas : ymCascade [searchStr matchP1At ([a, b, c, d] ++ '年' :: (ms ++ '月' :: rest)),
      searchStr matchP2At ([a, b, c, d] ++ '年' :: (ms ++ '月' :: rest)),
      searchStr matchP3At ([a, b, c, d] ++ '年' :: (ms ++ '月' :: rest))] = some (N, M) := by
    rw [hsearch]
    simp [ymCascade, hvalid]
  rw [extract_year_month_from_path, hcas]

/-- Witness for C5 at the concrete path 2024年3月5日. -/
theorem extract_year_month_from_path_exact_witness :
    extract_year_month_from_path ("2024年3月5日".toList) = (some 2024, some 3) :=
  extract_year_month_from_path_exact ("2024".toList) ("3".toList) ("5日".toList) 2024 3
    (by decide) (by decide) (by decide) (by decide) (by decide) (by decide)
    (by decide) (by decide)

/-! ## Grouping stage (`parsers.group_files_by_year`,
`parsers.group_files_by_year_month`) -/

/-- Model of a file dict from the drive listing; grouping reads only
`file['name']` and `file.get('path', filename)`. -/
structure DriveFile where
  name : Str
  path : Option Str
deriving DecidableEq

/-- Model of `file.get('path', filename)`. -/
def drivePath (f : DriveFile) : Str := f.path.getD f.name

/-- Model of `defaultdict(list)` append under key `k`, preserving dict
insertion order. -/
def assocAppend {α β : Type} [DecidableEq α] (idx : List (α × List β)) (k : α) (v : β) :
    List (α × List β) :=
  match idx with
  | [] => [(k, [v])]
  | (k2, vs) :: rest =>
    if k2 = k then (k2, vs ++ [v]) :: rest
    else (k2, vs) :: assocAppend rest k v

/-- Dictionary lookup in an insertion-ordered association list. -/
def assocFind {α β : Type} [DecidableEq α] (idx : List (α × β)) (k : α) : Option β :=
  match idx with
  | [] => none
  | (k2, v) :: rest => if k2 = k then some v else assocFind rest k

/-- Model of `defaultdict(lambda: defaultdict(list))` append under keys
`(k1, k2)`. -/
def assocAppend2 {α β γ : Type} [DecidableEq α] [DecidableEq β]
    (idx : List (α × List (β × List γ))) (k1 : α) (k2 : β) (v : γ) :
    List (α × List (β × List γ)) :=
  match idx with
  | [] => [(k1, [(k2, [v])])]
  | (k, inner) :: rest =>
    if k = k1 then (k, assocAppend inner k2 v) :: rest
    else (k, inner) :: assocAppend2 rest k1 k2 v

/-- Loop body of `group_files_by_year`: a file whose year fails to resolve is
skipped with a warning. -/
def yearStep (idx : List (Nat × List DriveFile)) (f : DriveFile) :
    List (Nat × List DriveFile) :=
  match extract_year_from_path (drivePath f) with
  | none => idx
  | some y => assocAppend idx y f

/-- Model of `group_files_by_year`. -/
def group_files_by_year (files : List DriveFile) : List (Nat × List DriveFile) :=
  files.foldl yearStep []

/-- Loop body of `group_files_by_year_month`: a file is skipped when either
the year or the month fails to resolve. -/
def ymStep (idx : List (Nat × List (Nat × List DriveFile))) (f : DriveFile) :
    List (Nat × List (Nat × List DriveFile)) :=
  match extract_year_month_from_path (drivePath f) with
  | (some y, some m) => assocAppend2 idx y m f
  | _ => idx

/-- Model of `group_files_by_year_month`. -/
def group_files_by_year_month (files : List DriveFile) :
    List (Nat × List (Nat × List DriveFile)) :=
  files.foldl ymStep []

/-- Membership of a file in the year bucket `y` of a year index. -/
def inYearIdx (idx : List (Nat × List DriveFile)) (y : Nat) (f : DriveFile) : Prop :=
  ∃ l, assocFind idx y = some l ∧ f ∈ l

/-- Membership of a file in the `(y, m)` bucket of a year-month index. -/
def inYMIdx (idx : List (Nat × List (Nat × List DriveFile))) (y m : Nat)
    (f : DriveFile) : Prop :=
  ∃ inner, assocFind idx y = some inner ∧ ∃ l, assocFind inner m = some l ∧ f ∈ l

theorem assocFind_mem {α β : Type} [DecidableEq α] {idx : List (α × β)} {k : α} {v : β}
    (h : assocFind idx k = some v) : (k, v) ∈ idx := by
  induction idx with
  | nil => cases h
  | cons p rest ih =>
    rcases p with ⟨k2, v2⟩
    unfold assocFind at h
    split at h
    · cases h
      rename_i heq
      subst heq
      exact List.mem_cons_self _ _
    · exact List.mem_cons_of_mem _ (ih h)

theorem assocAppend_mem {α β : Type} [DecidableEq α] {idx : List (α × List β)}
    {k : α} {v : β} {p : α × List β} (h : p ∈ assocAppend idx k v) :
    (∃ q ∈ idx, p.1 = q.1 ∧ ∀ x ∈ p.2, x ∈ q.2 ∨ x = v) ∨
      (p.1 = k ∧ ∀ x ∈ p.2, x = v) := by
  induction idx with
  | nil =>
    simp [assocAppend] at h
    subst h
    right
    exact ⟨rfl, by simp⟩
  | cons q rest ih =>
    rcases q with ⟨k2, vs⟩
    unfold assocAppend at h
    split at h
    · rcases List.mem_cons.1 h with rfl | hmem
      · left
        refine ⟨(k2, vs), List.mem_cons_self _ _, rfl, ?_⟩
        intro x hx
        rcases List.mem_append.1 hx with hx1 | hx2
        · exact Or.inl hx1
        · exact Or.inr (List.mem_singleton.1 hx2)
      · left
        exact ⟨p, List.mem_cons_of_mem _ hmem, rfl, fun x hx => Or.inl hx⟩
    · rcases List.mem_cons.1 h with rfl | hmem
      · left
        exact ⟨(k2, vs), List.mem_cons_self _ _, rfl, fun x hx => Or.inl hx⟩
      · rcases ih hmem with ⟨q, hq, h1, h2⟩ | h3
        · exact Or.inl ⟨q, List.mem_cons_of_mem _ hq, h1, h2⟩
        · exact Or.inr h3

theorem assocFind_append_self {α β : Type} [DecidableEq α] (idx : List (α × List β))
    (k : α) (v : β) :
    assocFind (assocAppend idx k v) k = some ((assocFind idx k).getD [] ++ [v]) := by
  induction idx with
  | nil => simp [assocAppend, assocFind]
  | cons p rest ih =>
    rcases p with ⟨k2, vs⟩
    by_cases hk : k2 = k
    · subst hk
      simp [assocAppend, assocFind]
    · simp [assocAppend, assocFind, hk, ih]

theorem assocFind_append_other {α β : Type} [DecidableEq α] {idx : List (α × List β)}
    {k y : α} (v : β) (hne : y ≠ k) :
    assocFind (assocAppend idx k v) y = assocFind idx y := by
  induction idx with
  | nil => simp [assocAppend, assocFind, Ne.symm hne]
  | cons p rest ih =>
    rcases p with ⟨k2, vs⟩
    by_cases hk : k2 = k
    · subst hk
      simp [assocAppend, assocFind, Ne.symm hne]
    · by_cases hy : k2 = y
      · subst hy
        simp [assocAppend, assocFind, hk]
      · simp [assocAppend, assocFind, hk, hy, ih]

theorem assocFind_append2_self {α β γ : Type} [DecidableEq α] [DecidableEq β]
    (idx : List (α × List (β × List γ))) (k1 : α) (k2 : β) (v : γ) :
    assocFind (assocAppend2 idx k1 k2 v) k1 =
      some (assocAppend ((assocFind idx k1).getD []) k2 v) := by
  induction idx with
  | nil => simp [assocAppend2, assocFind, assocAppend]
  | cons p rest ih =>
    rcases p with ⟨k, inner⟩
    by_cases hk : k = k1
    · subst hk
      simp [assocAppend2, assocFind]
    · simp [assocAppend2, assocFind, hk, ih]

theorem assocFind_append2_other {α β γ : Type} [DecidableEq α] [DecidableEq β]
    {idx : List (α × List (β × List γ))} {k1 y : α} (k2 : β) (v : γ) (hne : y ≠ k1) :
    assocFind (assocAppend2 idx k1 k2 v) y = assocFind idx y := by
  induction idx with
  | nil => simp [assocAppend2, assocFind, Ne.symm hne]
  | cons p rest ih =>
    rcases p with ⟨k, inner⟩
    by_cases hk : k = k1
    · subst hk
      simp [assocAppend2, assocFind, Ne.symm hne]
    · by_cases hy : k = y
      · subst hy
        simp [assocAppend2, assocFind, hk]
      · simp [assocAppend2, assocFind, hk, hy, ih]

theorem inYearIdx_append_self (idx : List (Nat × List DriveFile)) (k : Nat)
    (v : DriveFile) : inYearIdx (assocAppend idx k v) k v := by
  exact ⟨_, assocFind_append_self idx k v, by simp⟩

theorem inYearIdx_append_mono {idx : List (Nat × List DriveFile)} {y : Nat}
    {f : DriveFile} (k : Nat) (v : DriveFile) (h : inYearIdx idx y f) :
    inYearIdx (assocAppend idx k v) y f := by
  rcases h with ⟨l, hfind, hmem⟩
  by_cases hk : y = k
  · subst hk
    refine ⟨_, assocFind_append_self idx y v, ?_⟩
    rw [hfind]
    simp [hmem]
  · exact ⟨l, (assocFind_append_other v hk).trans hfind, hmem⟩

theorem inYMIdx_append2_origin {idx : List (Nat × List (Nat × List DriveFile))}
    {y m y' m' : Nat} {f g : DriveFile}
    (h : inYMIdx (assocAppend2 idx y' m' g) y m f) :
    inYMIdx idx y m f ∨ (f = g ∧ y = y' ∧ m = m') := by
  rcases h with ⟨inner, hfind, l, hfindm, hmem⟩
  by_cases hy : y = y'
  · subst hy
    rw [assocFind_append2_self idx y m' g] at hfind
    cases hfind
    by_cases hm : m = m'
    · subst hm
      rw [assocFind_append_self _ m g] at hfindm
      cases hfindm
      rcases List.mem_append.1 hmem with hl | hg
      · left
        cases hfind0 : assocFind idx y with
        | none =>
          rw [hfind0] at hl; simp at hl
          cases hfindm0 : assocFind ([] : List (Nat × List DriveFile)) m <;>
            simp [assocFind] at hfindm0 hl
        | some inner0 =>
          rw [hfind0] at hl
          simp only [Option.getD_some] at hl
          cases hfindm0 : assocFind inner0 m with
          | none => rw [hfindm0] at hl; simp at hl
          | some l0 =>
            rw [hfindm0] at hl
            simp only [Option.getD_some] at hl
            exact ⟨inner0, hfind0, l0, hfindm0, hl⟩
      · right
        exact ⟨List.mem_singleton.1 hg, rfl, rfl⟩
    · rw [assocFind_append_other g hm] at hfindm
      left
      cases hfind0 : assocFind idx y with
      | none =>
        rw [hfind0] at hfindm
        simp [assocFind] at hfindm
      | some inner0 =>
        rw [hfind0] at hfindm
        simp only [Option.getD_some] at hfindm
        exact ⟨inner0, hfind0, l, hfindm, hmem⟩
  · left
    rw [assocFind_append2_other m' g hy] at hfind
    exact ⟨inner, hfind, l, hfindm, hmem⟩

theorem foldl_inv {σ α : Type} {P : σ → Prop} (step : σ → α → σ)
    (hstep : ∀ s a, P s → P (step s a)) :
    ∀ (l : List α) (s : σ), P s → P (l.foldl step s) := by
  intro l
  induction l with
  | nil => intro s hs; exact hs
  | cons a rest ih => intro s hs; exact ih (step s a) (hstep s a hs)

theorem assocAppend_forall {α β : Type} [DecidableEq α] {P : α × List β → Prop}
    {idx : List (α × List β)} {k : α} {v : β}
    (hidx : ∀ p ∈ idx, P p) (hnew : P (k, [v]))
    (hext : ∀ k2 vs, P (k2, vs) → P (k2, vs ++ [v])) :
    ∀ p ∈ assocAppend idx k v, P p := by
  induction idx with
  | nil =>
    intro p hp
    simp [assocAppend] at hp
    subst hp
    exact hnew
  | cons q rest ih =>
    rcases q with ⟨k2, vs⟩
    intro p hp
    unfold assocAppend at hp
    split at hp
    · rcases List.mem_cons.1 hp with rfl | hmem
      · exact hext k2 vs (hidx _ (List.mem_cons_self _ _))
      · exact hidx p (List.mem_cons_of_mem _ hmem)
    · rcases List.mem_cons.1 hp with rfl | hmem
      · exact hidx _ (List.mem_cons_self _ _)
      · exact ih (fun q hq => hidx q (List.mem_cons_of_mem _ hq)) p hmem

theorem assocAppend2_forall {α β γ : Type} [DecidableEq α] [DecidableEq β]
    {P : α × List (β × List γ) → Prop}
    {idx : List (α × List (β × List γ))} {k1 : α} {k2 : β} {v : γ}
    (hidx : ∀ p ∈ idx, P p) (hnew : P (k1, [(k2, [v])]))
    (hext : ∀ k inner, P (k, inner) → P (k, assocAppend inner k2 v)) :
    ∀ p ∈ assocAppend2 idx k1 k2 v, P p := by
  induction idx with
  | nil =>
    intro p hp
    simp [assocAppend2] at hp
    subst hp
    exact hnew
  | cons q rest ih =>
    rcases q with ⟨k, inner⟩
    intro p hp
    unfold assocAppend2 at hp
    split at hp
    · rcases List.mem_cons.1 hp with rfl | hmem
      · exact hext k inner (hidx _ (List.mem_cons_self _ _))
      · exact hidx p (List.mem_cons_of_mem _ hmem)
    · rcases List.mem_cons.1 hp with rfl | hmem
      · exact hidx _ (List.mem_cons_self _ _)
      · exact ih (fun q hq => hidx q (List.mem_cons_of_mem _ hq)) p hmem

theorem ymStep_nonempty (idx : List (Nat × List (Nat × List DriveFile)))
    (f : DriveFile) (h : ∀ p ∈ idx, ∀ q ∈ p.2, q.2 ≠ []) :
    ∀ p ∈ ymStep idx f, ∀ q ∈ p.2, q.2 ≠ [] := by
  unfold ymStep
  rcases h1 : extract_year_month_from_path (drivePath f) with ⟨oy, om⟩
  cases oy with
  | none => exact h
  | some y =>
    cases om with
    | none => exact h
    | some m =>
      apply assocAppend2_forall h
      · intro q hq
        simp at hq
        subst hq
        simp
      · intro k inner hinner
        apply assocAppend_forall hinner
        · simp
        · intro k2 vs _
          simp

theorem group_year_mem_aux : ∀ (files : List DriveFile)
    (acc : List (Nat × List DriveFile)) (f : DriveFile) (y : Nat),
    ((f ∈ files ∧ extract_year_from_path (drivePath f) = some y) ∨ inYearIdx acc y f) →
    inYearIdx (files.foldl yearStep acc) y f := by
  intro files
  induction files with
  | nil =>
    intro acc f y h
    rcases h with ⟨hf, _⟩ | h
    · exact absurd hf (List.not_mem_nil f)
    · exact h
  | cons f0 rest ih =>
    intro acc f y h
    simp only [List.foldl_cons]
    apply ih
    rcases h with ⟨hf, hex⟩ | hacc
    · rcases List.mem_cons.1 hf with rfl | hfr
      · right
        unfold yearStep
        rw [hex]
        exact inYearIdx_append_self acc y f
      · exact Or.inl ⟨hfr, hex⟩
    · right
      unfold yearStep
      cases hext : extract_year_from_path (drivePath f0) with
      | none => exact hacc
      | some y0 => exact inYearIdx_append_mono y0 f0 hacc

theorem group_ym_origin_aux : ∀ (files : List DriveFile)
    (acc : List (Nat × List (Nat × List DriveFile))) (y m : Nat) (f : DriveFile),
    inYMIdx (files.foldl ymStep acc) y m f →
    inYMIdx acc y m f ∨
      (f ∈ files ∧ extract_year_month_from_path (drivePath f) = (some y, some m)) := by
  intro files
  induction files with
  | nil =>
    intro acc y m f h
    exact Or.inl h
  | cons f0 rest ih =>
    intro acc y m f h
    simp only [List.foldl_cons] at h
    rcases ih _ y m f h with hacc | ⟨hfr, hex⟩
    · unfold ymStep at hacc
      rcases h1 : extract_year_month_from_path (drivePath f0) with ⟨oy, om⟩
      rw [h1] at hacc
      cases oy with
      | none => exact Or.inl hacc
      | some y0 =>
        cases om with
        | none => exact Or.inl hacc
        | some m0 =>
          rcases inYMIdx_append2_origin hacc with h2 | ⟨rfl, rfl, rfl⟩
          · exact Or.inl h2
          · exact Or.inr ⟨List.mem_cons_self _ _, h1⟩
    · exact Or.inr ⟨List.mem_cons_of_mem _ hfr, hex⟩

/-- C6 (amended): every (year, month) key present in the year-month index maps
to a non-empty bucket, and a document in bucket (y, m) is one of the input
files whose path's year-month extraction yields exactly (y, m); whenever the
year-only extraction succeeds on that path, the document also sits in that
year's bucket of `group_files_by_year` — but that year may differ from y, and
year-only extraction may even fail, so membership in the year-month index does
not imply membership in the year bucket for the same year. -/
theorem group_files_sound (files : List DriveFile) :
    (∀ y inner, assocFind (group_files_by_year_month files) y = some inner →
      ∀ m l, assocFind inner m = some l → l ≠ []) ∧
    (∀ f y m, inYMIdx (group_files_by_year_month files) y m f →
      f ∈ files ∧ extract_year_month_from_path (drivePath f) = (some y, some m) ∧
      ∀ y2, extract_year_from_path (drivePath f) = some y2 →
        inYearIdx (group_files_by_year files) y2 f) := by
  constructor
  · intro y inner hfind m l hfindm
    have hinv : ∀ p ∈ group_files_by_year_month files, ∀ q ∈ p.2, q.2 ≠ [] := by
      unfold group_files_by_year_month
      exact foldl_inv ymStep ymStep_nonempty files [] (by intro p hp; cases hp)
    exact hinv (y, inner) (assocFind_mem hfind) (m, l) (assocFind_mem hfindm)
  · intro f y m h
    rcases group_ym_origin_aux files [] y m f h with h0 | ⟨hf, hex⟩
    · rcases h0 with ⟨inner, hfind, _⟩
      cases hfind
    · exact ⟨hf, hex, fun y2 hex2 =>
        group_year_mem_aux files [] f y2 (Or.inl ⟨hf, hex2⟩)⟩

/-- Concrete file whose year-month extraction and year extraction disagree. -/
def fileCx : DriveFile := ⟨"x".toList, some ("2020-05-1999年".toList)⟩

/-- Counterexample to C6 as stated: this file lands in the (2020, 5) bucket of
the year-month index, but the year index places it under 1999, not 2020, so it
is not in the year bucket for the same year. -/
theorem group_files_year_month_mismatch :
    group_files_by_year_month [fileCx] = [(2020, [(5, [fileCx])])] ∧
      group_files_by_year [fileCx] = [(1999, [fileCx])] ∧
      inYMIdx (group_files_by_year_month [fileCx]) 2020 5 fileCx ∧
      ¬ inYearIdx (group_files_by_year [fileCx]) 2020 fileCx := by
  refine ⟨by decide, by decide, ⟨[(5, [fileCx])], by decide, [fileCx], by decide, by decide⟩, ?_⟩
  rintro ⟨l, hfind, hmem⟩
  have : group_files_by_year [fileCx] = [(1999, [fileCx])] := by decide
  rw [this] at hfind
  simp [assocFind] at hfind

/-- Witness for the amended C6 at a well-behaved concrete file. -/
def fileW : DriveFile := ⟨"w".toList, some ("2023年1月5日".toList)⟩

/-- Witness for C6 (amended): applying the theorem at a concrete one-file
input whose extractions agree. -/
theorem group_files_sound_witness :
    fileW ∈ [fileW] ∧
      extract_year_month_from_path (drivePath fileW) = (some 2023, some 1) ∧
      ∀ y2, extract_year_from_path (drivePath fileW) = some y2 →
        inYearIdx (group_files_by_year [fileW]) y2 fileW :=
  (group_files_sound [fileW]).2 fileW 2023 1
    ⟨[(1, [fileW])], by decide, [fileW], by decide, by decide⟩

/-! ## Retry policy (`summarizer.call_claude_with_retry`) -/

/-- Structured name of a persisted artifact; the Python code derives distinct
path strings from year and month, modelled here as structured keys. -/
inductive SummaryKey where
  | yearly (year : Nat)
  | monthly (year month : Nat)
  | rawDiaries (year : Nat)
deriving DecidableEq

/-- Observable side effects of the pipeline: one completion-API attempt, one
`time.sleep`, or one file write. -/
inductive Event where
  | apiCall (attempt : Nat)
  | sleepSec (seconds : Nat)
  | writeFile (k : SummaryKey)
deriving DecidableEq

/-- Model of Python `needle in haystack` for strings. -/
def containsSub (needle l : Str) : Bool := (findSep needle l).isSome

/-- Rate-limit classification:
`"rate_limit_error" in error_str or "429" in error_str`. -/
def isRateLimitError (e : Str) : Bool :=
  containsSub ("rate_limit_error".toList) e || containsSub ("429".toList) e

/-- Loop body of `call_claude_with_retry`; `attempt` is the 0-based loop index
and the adapter maps an attempt index to that attempt's outcome. The `none`
result models falling out of the loop, which happens only when
`max_retries = 0`. -/
def callAux (adapter : Nat → Except Str Str) (maxr attempt : Nat) :
    Option (Except Str Str) × List Event :=
  if h : attempt < maxr then
    match adapter attempt with
    | .ok t => (some (.ok t), [.apiCall attempt])
    | .error e =>
      if isRateLimitError e then
        if h2 : attempt < maxr - 1 then
          let r := callAux adapter maxr (attempt + 1)
          (r.1, .apiCall attempt :: .sleepSec ((attempt + 1) * 30) :: r.2)
        else
          (some (.error ("Exceeded maximum retries: ".toList ++ e)), [.apiCall attempt])
      else (some (.error e), [.apiCall attempt])
  else (none, [])
termination_by maxr - attempt
decreasing_by omega

/-- Model of `call_claude_with_retry(client, prompt, max_retries)` (the Python
default for `max_retries` is 3). -/
def call_claude_with_retry (adapter : Nat → Except Str Str) (max_retries : Nat) :
    Option (Except Str Str) × List Event :=
  callAux adapter max_retries 0

/-- Attempt indices of the API calls within an event trace. -/
def apiCalls (evs : List Event) : List Nat :=
  evs.filterMap (fun e => match e with | .apiCall a => some a | _ => none)

/-- Sleep durations within an event trace. -/
def sleeps (evs : List Event) : List Nat :=
  evs.filterMap (fun e => match e with | .sleepSec s => some s | _ => none)

theorem callAux_stop (adapter : Nat → Except Str Str) {maxr attempt : Nat}
    (h : ¬ attempt < maxr) : callAux adapter maxr attempt = (none, []) := by
  rw [callAux, dif_neg h]

theorem callAux_ok (adapter : Nat → Except Str Str) {maxr attempt : Nat} {t : Str}
    (h : attempt < maxr) (ha : adapter attempt = .ok t) :
    callAux adapter maxr attempt = (some (.ok t), [.apiCall attempt]) := by
  rw [callAux, dif_pos h, ha]

theorem callAux_rl_step (adapter : Nat → Except Str Str) {maxr attempt : Nat} {e : Str}
    (h : attempt + 1 < maxr) (ha : adapter attempt = .error e)
    (hrl : isRateLimitError e = true) :
    callAux adapter maxr attempt =
      ((callAux adapter maxr (attempt + 1)).1,
        .apiCall attempt :: .sleepSec ((attempt + 1) * 30) ::
          (callAux adapter maxr (attempt + 1)).2) := by
  rw [callAux, dif_pos (by omega), ha]
  simp only [hrl, if_true]
  rw [dif_pos (by omega)]

theorem callAux_rl_last (adapter : Nat → Except Str Str) {maxr attempt : Nat} {e : Str}
    (h : attempt < maxr) (hlast : ¬ attempt < maxr - 1) (ha : adapter attempt = .error e)
    (hrl : isRateLimitError e = true) :
    callAux adapter maxr attempt =
      (some (.error ("Exceeded maximum retries: ".toList ++ e)), [.apiCall attempt]) := by
  rw [callAux, dif_pos h, ha]
  simp only [hrl, if_true]
  rw [dif_neg hlast]

theorem callAux_nonrl (adapter : Nat → Except Str Str) {maxr attempt : Nat} {e : Str}
    (h : attempt < maxr) (ha : adapter attempt = .error e)
    (hrl : isRateLimitError e = false) :
    callAux adapter maxr attempt = (some (.error e), [.apiCall attempt]) := by
  rw [callAux, dif_pos h, ha]
  simp [hrl]

theorem callAux_calls_le : ∀ (k : Nat) (adapter : Nat → Except Str Str)
    (maxr attempt : Nat), maxr - attempt ≤ k →
    (apiCalls (callAux adapter maxr attempt).2).length ≤ maxr - attempt := by
  intro k
  induction k with
  | zero =>
    intro adapter maxr attempt hk
    rw [callAux_stop adapter (by omega)]
    simp [apiCalls]
  | succ k ih =>
    intro adapter maxr attempt hk
    by_cases h : attempt < maxr
    · cases ha : adapter attempt with
      | ok t =>
        rw [callAux_ok adapter h ha]
        simp [apiCalls]
        omega
      | error e =>
        by_cases hrl : isRateLimitError e = true
        · by_cases h2 : attempt < maxr - 1
          · rw [callAux_rl_step adapter (by omega) ha hrl]
            have := ih adapter maxr (attempt + 1) (by omega)
            simp only [apiCalls, List.filterMap_cons] at this ⊢
            simp only [List.length_cons]
            omega
          · rw [callAux_rl_last adapter h h2 ha hrl]
            simp [apiCalls]
            omega
        · rw [callAux_nonrl adapter h ha (by simpa using hrl)]
          simp [apiCalls]
          omega
    · rw [callAux_stop adapter h]
      simp [apiCalls]

/-- C4: with the fixed maximum of 3 attempts, `call_claude_with_retry` makes
at most 3 API attempts; two rate-limit failures followed by a success yield
exactly the trace attempt-sleep(30)-attempt-sleep(60)-attempt and return the
successful text; three rate-limit failures raise the terminal
"Exceeded maximum retries" error after the same 30s and 60s backoffs; and a
non-rate-limit error on any attempt (after only rate-limited failures) is
raised immediately, with no further attempts and no further backoff. -/
theorem call_claude_with_retry_policy (adapter : Nat → Except Str Str) :
    ((apiCalls (call_claude_with_retry adapter 3).2).length ≤ 3) ∧
    (∀ e1 e2 t, adapter 0 = .error e1 → isRateLimitError e1 = true →
      adapter 1 = .error e2 → isRateLimitError e2 = true →
      adapter 2 = .ok t →
      call_claude_with_retry adapter 3 =
        (some (.ok t),
          [.apiCall 0, .sleepSec 30, .apiCall 1, .sleepSec 60, .apiCall 2])) ∧
    (∀ e1 e2 e3, adapter 0 = .error e1 → isRateLimitError e1 = true →
      adapter 1 = .error e2 → isRateLimitError e2 = true →
      adapter 2 = .error e3 → isRateLimitError e3 = true →
      call_claude_with_retry adapter 3 =
        (some (.error ("Exceeded maximum retries: ".toList ++ e3)),
          [.apiCall 0, .sleepSec 30, .apiCall 1, .sleepSec 60, .apiCall 2])) ∧
    (∀ j e, j < 3 →
      (∀ i, i < j → ∃ ei, adapter i = .error ei ∧ isRateLimitError ei = true) →
      adapter j = .error e → isRateLimitError e = false →
      (call_claude_with_retry adapter 3).1 = some (.error e) ∧
        apiCalls (call_claude_with_retry adapter 3).2 = List.range (j + 1) ∧
        sleeps (call_claude_with_retry adapter 3).2 =
          (List.range j).map (fun i => (i + 1) * 30)) := by
  refine ⟨?_, ?_, ?_, ?_⟩
  · exact callAux_calls_le 3 adapter 3 0 (by omega)
  · intro e1 e2 t h0 hrl1 h1 hrl2 h2
    unfold call_claude_with_retry
    rw [callAux_rl_step adapter (by omega) h0 hrl1,
      callAux_rl_step adapter (by omega) h1 hrl2,
      callAux_ok adapter (by omega) h2]
  · intro e1 e2 e3 h0 hrl1 h1 hrl2 h2 hrl3
    unfold call_claude_with_retry
    rw [callAux_rl_step adapter (by omega) h0 hrl1,
      callAux_rl_step adapter (by omega) h1 hrl2,
      callAux_rl_last adapter (by omega) (by omega) h2 hrl3]
  · intro j e hj hpre hje hrl
    unfold call_claude_with_retry
    interval_cases j
    · rw [callAux_nonrl adapter (by omega) hje hrl]
      refine ⟨rfl, by simp [apiCalls, List.range_succ], by simp [sleeps]⟩
    · rcases hpre 0 (by omega) with ⟨e0, he0, hrl0⟩
      rw [callAux_rl_step adapter (by omega) he0 hrl0,
        callAux_nonrl adapter (by omega) hje hrl]
      refine ⟨rfl, ?_, ?_⟩
      · simp [apiCalls, List.range_succ]
      · simp [sleeps, List.range_succ]
    · rcases hpre 0 (by omega) with ⟨e0, he0, hrl0⟩
      rcases hpre 1 (by omega) with ⟨e1, he1, hrl1⟩
      rw [callAux_rl_step adapter (by omega) he0 hrl0,
        callAux_rl_step adapter (by omega) he1 hrl1,
        callAux_nonrl adapter (by omega) hje hrl]
      refine ⟨rfl, ?_, ?_⟩
      · simp [apiCalls, List.range_succ]
      · simp [sleeps, List.range_succ]

/-- Concrete adapter that hits the rate limit twice then succeeds. -/
def adapterW : Nat → Except Str Str :=
  fun k => if k < 2 then .error ("429".toList) else .ok ("done".toList)

/-- Witness for C4: the concrete two-rate-limit-failures-then-success adapter
waits 30s then 60s and returns the successful text. -/
theorem call_claude_with_retry_policy_witness :
    call_claude_with_retry adapterW 3 =
      (some (.ok ("done".toList)),
        [.apiCall 0, .sleepSec 30, .apiCall 1, .sleepSec 60, .apiCall 2]) :=
  (call_claude_with_retry_policy adapterW).2.1 ("429".toList) ("429".toList)
    ("done".toList) rfl (by decide) rfl (by decide) rfl

/-! ## Cache/resume storage (`storage.py`) -/

/-- Decimal digit character for a digit value below 10. -/
def digitChar (d : Nat) : Char := Char.ofNat (48 + d)

/-- Fuelled accumulating decimal printer for the nonzero case of `str(n)`;
the fuel only needs to dominate `n`. -/
def natToCharsGo : Nat → Nat → Str → Str
  | 0, _, acc => acc
  | fuel + 1, n, acc =>
    if n = 0 then acc else natToCharsGo fuel (n / 10) (digitChar (n % 10) :: acc)

/-- Model of Python `str(n)` for a natural number. -/
def natToChars (n : Nat) : Str := if n = 0 then ['0'] else natToCharsGo n n []

theorem natToCharsGo_mem : ∀ (fuel n : Nat) (acc : Str) (c : Char),
    c ∈ natToCharsGo fuel n acc → (∃ d, d < 10 ∧ c = digitChar d) ∨ c ∈ acc := by
  intro fuel
  induction fuel with
  | zero =>
    intro n acc c h
    exact Or.inr h
  | succ fuel ih =>
    intro n acc c h
    by_cases h0 : n = 0
    · rw [natToCharsGo, if_pos h0] at h
      exact Or.inr h
    · rw [natToCharsGo, if_neg h0] at h
      rcases ih (n / 10) _ c h with hd | hacc
      · exact Or.inl hd
      · rcases List.mem_cons.1 hacc with rfl | hacc2
        · exact Or.inl ⟨n % 10, Nat.mod_lt n (by omega), rfl⟩
        · exact Or.inr hacc2

theorem natToChars_digits {n : Nat} {c : Char} (h : c ∈ natToChars n) :
    ∃ d, d < 10 ∧ c = digitChar d := by
  unfold natToChars at h
  split at h
  · simp at h
    exact ⟨0, by omega, by rw [h]; rfl⟩
  · rcases natToCharsGo_mem n n [] c h with hd | habs
    · exact hd
    · cases habs

theorem natToCharsGo_head : ∀ (fuel n : Nat) (acc : Str), n ≤ fuel → n ≠ 0 →
    ∃ c rest, natToCharsGo fuel n acc = c :: rest ∧ c.isDigit = true := by
  intro fuel
  induction fuel with
  | zero => intro n acc hn h0; exact absurd (Nat.le_zero.1 hn) h0
  | succ fuel ih =>
    intro n acc hn h0
    rw [natToCharsGo, if_neg h0]
    have hdig : ∀ d, d < 10 → (digitChar d).isDigit = true := by decide
    by_cases h1 : n / 10 = 0
    · cases fuel with
      | zero =>
        exact ⟨digitChar (n % 10), acc, rfl, hdig (n % 10) (Nat.mod_lt n (by omega))⟩
      | succ fuel2 =>
        rw [natToCharsGo, if_pos h1]
        exact ⟨digitChar (n % 10), acc, rfl, hdig (n % 10) (Nat.mod_lt n (by omega))⟩
    · exact ih (n / 10) _ (by
        have := Nat.div_lt_self (Nat.pos_of_ne_zero h0) (show 1 < 10 by omega)
        omega) h1

theorem natToChars_head {n : Nat} :
    ∃ c rest, natToChars n = c :: rest ∧ c.isDigit = true := by
  unfold natToChars
  split
  · exact ⟨'0', [], rfl, by decide⟩
  · exact natToCharsGo_head n n [] (Nat.le_refl n) (by assumption)

/-- The filesystem is an association list from structured file keys to file
contents; a write prepends and a read returns the most recent write. -/
abbrev FS := List (SummaryKey × Str)

/-- Model of writing a file (`open(..., 'w')` then `write`). -/
def fsWrite (fs : FS) (k : SummaryKey) (v : Str) : FS := (k, v) :: fs

/-- Model of reading a file's content when it exists. -/
def fsRead (fs : FS) (k : SummaryKey) : Option Str := assocFind fs k

/-- Model of `Path.exists()`. -/
def fsHas (fs : FS) (k : SummaryKey) : Bool := (fsRead fs k).isSome

theorem fsRead_write_self (fs : FS) (k : SummaryKey) (v : Str) :
    fsRead (fsWrite fs k v) k = some v := by
  simp [fsRead, fsWrite, assocFind]

/-! ### Single-character split lemmas -/

theorem findSep_min {sep l : Str} {i : Nat} (h : findSep sep l = some i) :
    ∀ j, j < i → sep.isPrefixOf (l.drop j) = false := by
  induction l generalizing i with
  | nil => simp [findSep] at h
  | cons c rest ih =>
    simp only [findSep] at h
    split at h
    · cases h
      intro j hj
      omega
    · rcases Option.map_eq_some'.1 h with ⟨k, hk, rfl⟩
      intro j hj
      cases j with
      | zero =>
        simp only [List.drop_zero]
        rename_i hcond
        cases hx : sep.isPrefixOf (c :: rest)
        · rfl
        · exact absurd hx hcond
      | succ j2 =>
        have := ih hk j2 (by omega)
        simpa using this

theorem singleton_prefix_get {c : Char} {l : Str} {j : Nat}
    (h : [c].isPrefixOf (l.drop j) = true) : l.get? j = some c := by
  have := @isPrefixOf_get [c] (l.drop j) h 0 (by simp)
  rw [List.get?_drop] at this
  simpa using this

theorem char_prefix_of_get {c : Char} {l : Str} {j : Nat} (h : l.get? j = some c) :
    [c].isPrefixOf (l.drop j) = true := by
  have h0 : (l.drop j).get? 0 = some c := by
    rw [List.get?_drop]
    simpa using h
  cases hd : l.drop j with
  | nil => rw [hd] at h0; cases h0
  | cons x t =>
    rw [hd] at h0
    simp at h0
    subst h0
    simp [List.isPrefixOf]

theorem mem_take_get {c : Char} {s : Str} {i : Nat} (h : c ∈ s.take i) :
    ∃ j, j < i ∧ s.get? j = some c := by
  rcases List.get_of_mem h with ⟨⟨j, hj⟩, hjeq⟩
  have hjlt : j < i := by
    have := hj
    simp only [List.length_take] at this
    omega
  refine ⟨j, hjlt, ?_⟩
  have h1 : (s.take i).get? j = some c := by
    rw [List.get?_eq_get hj, hjeq]
  rwa [List.get?_take hjlt] at h1

theorem findSep_char_not_mem_take {c : Char} {s : Str} {i : Nat}
    (h : findSep [c] s = some i) : c ∉ s.take i := by
  intro hmem
  rcases mem_take_get hmem with ⟨j, hj, hget⟩
  have hmin := findSep_min h j hj
  rw [char_prefix_of_get hget] at hmin
  cases hmin

theorem findSep_char_append (c : Char) (a b : Str) (ha : c ∉ a) :
    findSep [c] (a ++ c :: b) = some a.length := by
  apply findSep_eq_some_of (by simp)
  · have hd : (a ++ c :: b).drop a.length = c :: b := List.drop_left a (c :: b)
    rw [hd]
    simp [List.isPrefixOf]
  · intro j hj
    cases hx : [c].isPrefixOf ((a ++ c :: b).drop j)
    · rfl
    · exfalso
      have hget := singleton_prefix_get hx
      rw [List.get?_append hj] at hget
      exact ha (List.get?_mem hget)

theorem splitOnL_char_append (c : Char) (a b : Str) (ha : c ∉ a) :
    splitOnL [c] (a ++ c :: b) = a :: splitOnL [c] b := by
  rw [splitOnL_of_some (by simp) (findSep_char_append c a b ha)]
  congr 1
  · exact List.take_left a (c :: b)
  · rw [show a.length + [c].length = (a ++ [c]).length from by simp,
      show a ++ c :: b = (a ++ [c]) ++ b from by simp, List.drop_left]

theorem not_mem_of_findSep_char_none {c : Char} {l : Str}
    (h : findSep [c] l = none) : c ∉ l := by
  intro hmem
  induction l with
  | nil => cases hmem
  | cons d t ih =>
    simp only [findSep] at h
    rcases List.mem_cons.1 hmem with rfl | hmem2
    · have : [c].isPrefixOf (c :: t) = true := by simp [List.isPrefixOf]
      rw [this] at h
      cases h
    · split at h
      · cases h
      · exact ih (Option.map_eq_none'.1 h) hmem2

theorem splitOnL_char_concat (c : Char) :
    ∀ (k : Nat) (s b : Str), s.length ≤ k →
    splitOnL [c] (s ++ c :: b) = splitOnL [c] s ++ splitOnL [c] b := by
  intro k
  induction k with
  | zero =>
    intro s b hs
    have hnil : s = [] := List.length_eq_zero.1 (by omega)
    subst hnil
    rw [splitOnL_char_append c [] b (by simp),
      splitOnL_of_none (by simp) (show findSep [c] ([] : Str) = none from rfl)]
    rfl
  | succ k ih =>
    intro s b hs
    cases hf : findSep [c] s with
    | none =>
      have hnm : c ∉ s := not_mem_of_findSep_char_none hf
      rw [splitOnL_char_append c s b hnm, splitOnL_of_none (by simp) hf]
      rfl
    | some i =>
      have hpre := findSep_isPrefixOf hf
      have hget : s.get? i = some c := singleton_prefix_get hpre
      have hlt : i < s.length := findSep_some_lt hf
      have hdec : s = s.take i ++ c :: s.drop (i + 1) := by
        conv_lhs => rw [← List.take_append_drop i s]
        congr 1
        have h1 : s.drop i = s.get ⟨i, hlt⟩ :: s.drop (i + 1) := List.drop_eq_get_cons hlt
        have h2 : s.get ⟨i, hlt⟩ = c := by
          have := List.get?_eq_get hlt
          rw [hget] at this
          exact (Option.some.inj this).symm
        rw [h1, h2]
      have hnm : c ∉ s.take i := findSep_char_not_mem_take hf
      have hlen2 : (s.drop (i + 1)).length ≤ k := by
        simp only [List.length_drop]
        omega
      calc splitOnL [c] (s ++ c :: b)
          = splitOnL [c] ((s.take i ++ c :: s.drop (i + 1)) ++ c :: b) := by rw [← hdec]
        _ = splitOnL [c] (s.take i ++ c :: (s.drop (i + 1) ++ c :: b)) := by simp
        _ = s.take i :: splitOnL [c] (s.drop (i + 1) ++ c :: b) :=
            splitOnL_char_append c _ _ hnm
        _ = s.take i :: (splitOnL [c] (s.drop (i + 1)) ++ splitOnL [c] b) := by
            rw [ih _ b hlen2]
        _ = (s.take i :: splitOnL [c] (s.drop (i + 1))) ++ splitOnL [c] b := rfl
        _ = splitOnL [c] s ++ splitOnL [c] b := by
            rw [splitOnL_of_some (by simp) hf]
            simp

/-! ### Stripping and joining lemmas -/

theorem dropWhile_length_eq {p : Char → Bool} {l : Str}
    (h : (l.dropWhile p).length = l.length) : l.dropWhile p = l :=
  List.IsSuffix.eq_of_length (List.dropWhile_suffix p) h

theorem rstripStr_length_le (x : Str) : (rstripStr x).length ≤ x.length := by
  unfold rstripStr
  rw [List.length_reverse]
  calc (x.reverse.dropWhile isSpaceChar).length ≤ x.reverse.length :=
        length_dropWhile_le _ _
    _ = x.length := List.length_reverse x

theorem strip_parts {l : Str} (h : stripStr l = l) :
    lstripStr l = l ∧ rstripStr l = l := by
  have hlen1 : (lstripStr l).length ≤ l.length := length_dropWhile_le _ _
  have hlen2 : (stripStr l).length ≤ (lstripStr l).length := rstripStr_length_le _
  have hleq : (stripStr l).length = l.length := by rw [h]
  have hl : lstripStr l = l := by
    have h3 : (lstripStr l).length = l.length := by omega
    exact dropWhile_length_eq (by simpa [lstripStr] using h3)
  refine ⟨hl, ?_⟩
  have : stripStr l = rstripStr l := by rw [stripStr, hl]
  rw [← this, h]

theorem rstrip_rev {x : Str} (h : rstripStr x = x) :
    x.reverse.dropWhile isSpaceChar = x.reverse := by
  have h2 := congrArg List.reverse h
  rw [rstripStr, List.reverse_reverse] at h2
  rw [h2]

theorem lstrip_shape {x : Str} (h : lstripStr x = x) :
    x = [] ∨ ∃ c t, x = c :: t ∧ isSpaceChar c = false := by
  cases x with
  | nil => exact Or.inl rfl
  | cons c t =>
    right
    refine ⟨c, t, rfl, ?_⟩
    cases hc : isSpaceChar c
    · rfl
    · exfalso
      unfold lstripStr at h
      rw [List.dropWhile_cons, if_pos hc] at h
      have := congrArg List.length h
      have hle := length_dropWhile_le isSpaceChar t
      simp only [List.length_cons] at this
      omega

theorem dropWhile_append_all {p : Char → Bool} {pre : Str} (y : Str)
    (h : ∀ c ∈ pre, p c = true) : (pre ++ y).dropWhile p = y.dropWhile p := by
  induction pre with
  | nil => rfl
  | cons c t ih =>
    rw [List.cons_append, List.dropWhile_cons, if_pos (h c (List.mem_cons_self c t))]
    exact ih (fun d hd => h d (List.mem_cons_of_mem c hd))

theorem dropWhile_all {p : Char → Bool} {l : Str} (h : ∀ c ∈ l, p c = true) :
    l.dropWhile p = [] := by
  induction l with
  | nil => rfl
  | cons c t ih =>
    rw [List.dropWhile_cons, if_pos (h c (List.mem_cons_self c t))]
    exact ih (fun d hd => h d (List.mem_cons_of_mem c hd))

/-- Stripping leading and trailing whitespace padding around a
strip-invariant core recovers exactly the core. -/
theorem strip_pad (pre x post : Str) (hx : stripStr x = x)
    (hpre : ∀ c ∈ pre, isSpaceChar c = true) (hpost : ∀ c ∈ post, isSpaceChar c = true) :
    stripStr (pre ++ (x ++ post)) = x := by
  obtain ⟨hlx, hrx⟩ := strip_parts hx
  unfold stripStr
  have h1 : lstripStr (pre ++ (x ++ post)) = lstripStr (x ++ post) :=
    dropWhile_append_all _ hpre
  rw [h1]
  rcases lstrip_shape hlx with rfl | ⟨c, t, rfl, hc⟩
  · have h2 : lstripStr (([] : Str) ++ post) = [] := by
      simp only [List.nil_append]
      exact dropWhile_all hpost
    rw [h2]
    rfl
  · have h2 : lstripStr ((c :: t) ++ post) = (c :: t) ++ post := by
      unfold lstripStr
      rw [List.cons_append, List.dropWhile_cons, if_neg (by simp [hc])]
    rw [h2]
    unfold rstripStr
    rw [List.reverse_append]
    rw [dropWhile_append_all _ (fun d hd => hpost d (List.mem_reverse.1 hd))]
    rw [rstrip_rev hrx, List.reverse_reverse]

/-- Model of Python `sep.join(parts)`. -/
def joinStr (sep : Str) : List Str → Str
  | [] => []
  | [x] => x
  | x :: y :: rest => x ++ sep ++ joinStr sep (y :: rest)

theorem splitGo_ne_nil (sep : Str) : ∀ (f : Nat) (l : Str), splitGo sep f l ≠ [] := by
  intro f l
  cases f with
  | zero => simp [splitGo]
  | succ f =>
    show (match findSep sep l with
      | none => [l]
      | some i => l.take i :: splitGo sep f (l.drop (i + sep.length))) ≠ []
    cases findSep sep l <;> simp

theorem splitOnL_ne_nil (sep l : Str) : splitOnL sep l ≠ [] := by
  unfold splitOnL
  split
  · simp
  · exact splitGo_ne_nil sep l.length l

theorem joinStr_splitOnL (c : Char) : ∀ (k : Nat) (s : Str), s.length ≤ k →
    joinStr [c] (splitOnL [c] s) = s := by
  intro k
  induction k with
  | zero =>
    intro s hs
    have : s = [] := List.length_eq_zero.1 (by omega)
    subst this
    rw [splitOnL_of_none (by simp) (show findSep [c] ([] : Str) = none from rfl)]
    rfl
  | succ k ih =>
    intro s hs
    cases hf : findSep [c] s with
    | none => rw [splitOnL_of_none (by simp) hf]; rfl
    | some i =>
      have hpre := findSep_isPrefixOf hf
      have hget : s.get? i = some c := singleton_prefix_get hpre
      have hlt : i < s.length := findSep_some_lt hf
      rw [splitOnL_of_some (by simp) hf]
      obtain ⟨y, r, heq⟩ : ∃ y r, splitOnL [c] (s.drop (i + [c].length)) = y :: r := by
        cases hsp : splitOnL [c] (s.drop (i + [c].length)) with
        | nil => exact absurd hsp (splitOnL_ne_nil _ _)
        | cons y r => exact ⟨y, r, rfl⟩
      rw [heq]
      show s.take i ++ [c] ++ joinStr [c] (y :: r) = s
      rw [← heq]
      have hlen2 : (s.drop (i + [c].length)).length ≤ k := by
        simp only [List.length_drop, List.length_singleton]
        omega
      rw [ih _ hlen2]
      have hdec : s = s.take i ++ c :: s.drop (i + 1) := by
        conv_lhs => rw [← List.take_append_drop i s]
        congr 1
        have h1 : s.drop i = s.get ⟨i, hlt⟩ :: s.drop (i + 1) := List.drop_eq_get_cons hlt
        have h2 : s.get ⟨i, hlt⟩ = c := by
          have := List.get?_eq_get hlt
          rw [hget] at this
          exact (Option.some.inj this).symm
        rw [h1, h2]
      conv_rhs => rw [hdec]
      simp

/-! ### Monthly summaries (`storage.save_monthly_summary_to_file`,
`storage.load_monthly_summary_from_file`) -/

/-- Rule line of 50 equals signs used in summary files. -/
def eq50 : Str := List.replicate 50 '='

/-- Title line of a monthly summary file. -/
def monthlyTitle (y m : Nat) : Str :=
  natToChars y ++ "年".toList ++ natToChars m ++ "月日记摘要".toList

/-- Generation-timestamp line; the timestamp text is a parameter because it
comes from `datetime.now()`. -/
def genTimeLine (ts : Str) : Str := "生成时间: ".toList ++ ts

/-- Content written by `save_monthly_summary_to_file`: title line, rule,
blank line, summary, blank line, rule, timestamp line. -/
def monthlyFileContent (y m : Nat) (summary ts : Str) : Str :=
  monthlyTitle y m ++ '\n' :: (eq50 ++ '\n' :: '\n' ::
    (summary ++ '\n' :: '\n' :: (eq50 ++ '\n' :: (genTimeLine ts ++ ['\n']))))

/-- Model of `save_monthly_summary_to_file`. -/
def save_monthly_summary_to_file (y m : Nat) (summary ts : Str) (fs : FS) : FS :=
  fsWrite fs (.monthly y m) (monthlyFileContent y m summary ts)

/-- Model of Python `line.startswith('=')`. -/
def startsWithEq : Str → Bool
  | [] => false
  | c :: _ => c = '='

/-- Loop of `load_monthly_summary_from_file`: skip until the first rule line,
collect lines until the second rule line. -/
def collectSummaryLines : List Str → Bool → List Str
  | [], _ => []
  | line :: rest, inS =>
    if startsWithEq line then
      if inS then [] else collectSummaryLines rest true
    else if inS then line :: collectSummaryLines rest inS
    else collectSummaryLines rest inS

/-- Model of `load_monthly_summary_from_file`. -/
def load_monthly_summary_from_file (y m : Nat) (fs : FS) : Option Str :=
  match fsRead fs (SummaryKey.monthly y m) with
  | none => none
  | some content =>
      some (stripStr (joinStr ['\n'] (collectSummaryLines (splitOnL ['\n'] content) false)))

theorem natToChars_avoid {n : Nat} {c : Char} (hc : ∀ d, d < 10 → digitChar d ≠ c) :
    c ∉ natToChars n := by
  intro h
  rcases natToChars_digits h with ⟨d, hd, heq⟩
  exact hc d hd heq.symm

theorem newline_not_mem_monthlyTitle (y m : Nat) : '\n' ∉ monthlyTitle y m := by
  intro h
  unfold monthlyTitle at h
  rcases List.mem_append.1 h with h1 | h2
  · rcases List.mem_append.1 h1 with h3 | h4
    · rcases List.mem_append.1 h3 with h5 | h6
      · exact natToChars_avoid (by decide) h5
      · revert h6; decide
    · exact natToChars_avoid (by decide) h4
  · revert h2; decide

theorem startsWithEq_cons_digit {c : Char} (t : Str) (h : c.isDigit = true) :
    startsWithEq (c :: t) = false := by
  have hne : c ≠ '=' := by
    intro hcc
    subst hcc
    exact absurd h (by decide)
  simp [startsWithEq, hne]

theorem startsWithEq_monthlyTitle (y m : Nat) : startsWithEq (monthlyTitle y m) = false := by
  obtain ⟨c, rest, heq, hdig⟩ := @natToChars_head y
  unfold monthlyTitle
  rw [heq]
  simp only [List.cons_append]
  exact startsWithEq_cons_digit _ hdig

theorem newline_not_mem_eq50 : '\n' ∉ eq50 := by decide

theorem startsWithEq_eq50 : startsWithEq eq50 = true := by decide

theorem splitOnL_empty (sep : Str) (h : sep ≠ []) : splitOnL sep [] = [[]] :=
  splitOnL_of_none h rfl

theorem splitOnL_char_cons (c : Char) (b : Str) :
    splitOnL [c] (c :: b) = [] :: splitOnL [c] b :=
  splitOnL_char_append c [] b (by simp)

theorem collect_skip {line : Str} {rest : List Str} (h : startsWithEq line = false) :
    collectSummaryLines (line :: rest) false = collectSummaryLines rest false := by
  simp [collectSummaryLines, h]

theorem collect_enter {line : Str} {rest : List Str} (h : startsWithEq line = true) :
    collectSummaryLines (line :: rest) false = collectSummaryLines rest true := by
  simp [collectSummaryLines, h]

theorem collect_take {line : Str} {rest : List Str} (h : startsWithEq line = false) :
    collectSummaryLines (line :: rest) true = line :: collectSummaryLines rest true := by
  simp [collectSummaryLines, h]

theorem collect_stop {line : Str} {rest : List Str} (h : startsWithEq line = true) :
    collectSummaryLines (line :: rest) true = [] := by
  simp [collectSummaryLines, h]

theorem collect_clean_append {ls : List Str} (rest : List Str)
    (h : ∀ p ∈ ls, startsWithEq p = false) :
    collectSummaryLines (ls ++ rest) true = ls ++ collectSummaryLines rest true := by
  induction ls with
  | nil => rfl
  | cons p t ih =>
    rw [List.cons_append, collect_take (h p (List.mem_cons_self p t)),
      ih (fun q hq => h q (List.mem_cons_of_mem p hq))]
    rfl

/-- C7 (amended): saving a monthly summary and loading it back returns the
summary verbatim, provided the summary is unchanged by whitespace stripping
and none of its lines begins with `=` (the loader treats such a line as the
closing rule and truncates there, and it strips surrounding whitespace). -/
theorem monthly_summary_round_trip (y m : Nat) (summary ts : Str) (fs : FS)
    (hstrip : stripStr summary = summary)
    (hlines : ∀ p ∈ splitOnL ['\n'] summary, startsWithEq p = false) :
    load_monthly_summary_from_file y m (save_monthly_summary_to_file y m summary ts fs) =
      some summary := by
  unfold load_monthly_summary_from_file save_monthly_summary_to_file
  rw [fsRead_write_self]
  show some (stripStr (joinStr ['\n'] (collectSummaryLines
    (splitOnL ['\n'] (monthlyFileContent y m summary ts)) false))) = some summary
  have hsplit : splitOnL ['\n'] (monthlyFileContent y m summary ts) =
      monthlyTitle y m :: eq50 :: [] ::
        (splitOnL ['\n'] summary ++ ([] :: eq50 ::
          (splitOnL ['\n'] (genTimeLine ts) ++ [[]]))) := by
    unfold monthlyFileContent
    rw [splitOnL_char_append '\n' (monthlyTitle y m) _ (newline_not_mem_monthlyTitle y m),
      splitOnL_char_append '\n' eq50 _ newline_not_mem_eq50,
      splitOnL_char_cons,
      splitOnL_char_concat '\n' summary.length summary _ (Nat.le_refl _),
      splitOnL_char_cons,
      splitOnL_char_append '\n' eq50 _ newline_not_mem_eq50,
      splitOnL_char_concat '\n' (genTimeLine ts).length (genTimeLine ts) []
        (Nat.le_refl _),
      splitOnL_empty ['\n'] (by simp)]
  rw [hsplit]
  rw [collect_skip (startsWithEq_monthlyTitle y m), collect_enter startsWithEq_eq50,
    collect_take (show startsWithEq [] = false from rfl),
    collect_clean_append _ hlines,
    collect_take (show startsWithEq [] = false from rfl),
    collect_stop startsWithEq_eq50]
  have hjoin : joinStr ['\n'] ([] :: (splitOnL ['\n'] summary ++ [[]])) =
      '\n' :: (summary ++ ['\n']) := by
    have hshape : splitOnL ['\n'] ('\n' :: (summary ++ ['\n'])) =
        [] :: (splitOnL ['\n'] summary ++ [[]]) := by
      rw [splitOnL_char_cons,
        splitOnL_char_concat '\n' summary.length summary [] (Nat.le_refl _),
        splitOnL_empty ['\n'] (by simp)]
    rw [← hshape, joinStr_splitOnL '\n' ('\n' :: (summary ++ ['\n'])).length _
      (Nat.le_refl _)]
  rw [hjoin]
  rw [show stripStr ('\n' :: (summary ++ ['\n'])) = summary from
    strip_pad ['\n'] summary ['\n'] hstrip (by decide) (by decide)]

/-- Counterexample to C7 as stated: a summary with leading whitespace is not
returned verbatim — the loader strips it. -/
theorem monthly_summary_round_trip_cx :
    load_monthly_summary_from_file 2024 3
        (save_monthly_summary_to_file 2024 3 (" x".toList) [] []) = some ("x".toList) ∧
      ("x".toList : Str) ≠ " x".toList := by
  constructor
  · decide
  · decide

/-- Witness for C7 (amended) at a concrete well-behaved summary. -/
theorem monthly_summary_round_trip_witness :
    load_monthly_summary_from_file 2024 3
        (save_monthly_summary_to_file 2024 3 ("去了公园".toList) ("20240101".toList) []) =
      some ("去了公园".toList) :=
  monthly_summary_round_trip 2024 3 ("去了公园".toList) ("20240101".toList) []
    (by decide) (by decide)

/-! ### Yearly raw-text cache (`storage.save_original_diaries_to_file`,
`storage.load_diaries_from_file`) -/

/-- Rule line of 60 equals signs used in the raw-text file. -/
def eq60 : Str := List.replicate 60 '='

/-- Separator the loader splits on: newline, rule, newline, opening bracket. -/
def sep63 : Str := '\n' :: (eq60 ++ ['\n', '【'])

/-- Needle the loader indexes for within each part: rule then blank line. -/
def needle62 : Str := eq60 ++ ['\n', '\n']

/-- Header block of the yearly raw-text file. -/
def originalHeader (y count : Nat) (ts : Str) : Str :=
  natToChars y ++ "年日记原文合集".toList ++ '\n' :: (eq60 ++ '\n' ::
    ("生成时间: ".toList ++ ts ++ '\n' :: ("共 ".toList ++ natToChars count ++
      " 篇日记".toList ++ '\n' :: (eq60 ++ ['\n', '\n']))))

/-- Block written for one diary entry: blank-rule banner, bracketed path line,
rule, blank line, content, blank lines. -/
def diaryBlock (d : Diary) : Str :=
  '\n' :: (eq60 ++ '\n' :: ('【' :: (diaryPath d ++ '】' :: '\n' ::
    (eq60 ++ '\n' :: '\n' :: (d.content ++ ['\n', '\n'])))))

/-- Full content written by `save_original_diaries_to_file`. -/
def originalFileContent (y : Nat) (ds : List Diary) (ts : Str) : Str :=
  originalHeader y ds.length ts ++ (ds.map diaryBlock).join

/-- Model of `save_original_diaries_to_file`. -/
def save_original_diaries_to_file (y : Nat) (ds : List Diary) (ts : Str) (fs : FS) : FS :=
  fsWrite fs (.rawDiaries y) (originalFileContent y ds ts)

/-- The tail of a diary block after the loader's separator is removed. -/
def diaryPart (d : Diary) : Str :=
  diaryPath d ++ '】' :: '\n' :: (needle62 ++ (d.content ++ ['\n', '\n']))

theorem diaryBlock_eq (d : Diary) : diaryBlock d = sep63 ++ diaryPart d := by
  unfold diaryBlock diaryPart sep63 needle62
  simp

/-- Model of `path_line.split('/')[-1] if '/' in path_line else path_line`. -/
def lastSegment (p : Str) : Str :=
  if p.contains '/' then (splitOnL ['/'] p).getLastD p else p

/-- Parse of one split part inside `load_diaries_from_file`: first line is the
path (with the closing bracket stripped), the content follows the first
occurrence of the rule-plus-blank-line needle and is stripped. -/
def parsePart (part : Str) : Option Diary :=
  match splitOnL ['\n'] part with
  | [] => none
  | line0 :: _ =>
    match findSep needle62 part with
    | none => none
    | some i =>
      some ⟨lastSegment (rstripChar '】' line0), some (rstripChar '】' line0),
        stripStr (part.drop (i + 62)), [], []⟩

/-- Body of `load_diaries_from_file` on the file content: split on the
separator, skip the header part, parse each remaining part, skipping parts
whose needle lookup fails. -/
def load_diaries_parse (content : Str) : List Diary :=
  ((splitOnL sep63 content).drop 1).filterMap parsePart

/-- Model of `load_diaries_from_file`. -/
def load_diaries_from_file (y : Nat) (fs : FS) : Option (List Diary) :=
  (fsRead fs (SummaryKey.rawDiaries y)).map load_diaries_parse

/-- The diary record the loader reconstructs for a saved entry: same path and
content, recomputed filename, empty timestamps. -/
def reparsedDiary (d : Diary) : Diary :=
  ⟨lastSegment (diaryPath d), some (diaryPath d), d.content, [], []⟩

theorem isPrefixOf_append_self (l t : Str) : l.isPrefixOf (l ++ t) = true :=
  List.isPrefixOf_iff_prefix.2 ⟨t, rfl⟩

theorem findSep_sep63_append (a b : Str) (ha : '【' ∉ a) :
    findSep sep63 (a ++ (sep63 ++ b)) = some a.length := by
  apply findSep_eq_some_of (by decide)
  · rw [List.drop_left a (sep63 ++ b)]
    exact isPrefixOf_append_self sep63 b
  · intro j hj
    cases hx : sep63.isPrefixOf ((a ++ (sep63 ++ b)).drop j)
    · rfl
    · exfalso
      have h62 := @isPrefixOf_get sep63 ((a ++ (sep63 ++ b)).drop j) hx 62 (by decide)
      rw [List.get?_drop] at h62
      rw [show sep63.get? 62 = some '【' from by decide] at h62
      by_cases hcase : j + 62 < a.length
      · rw [List.get?_append hcase] at h62
        exact ha (List.get?_mem h62)
      · rw [List.get?_append_right (by omega)] at h62
        have ho : j + 62 - a.length < 62 := by omega
        rw [List.get?_append (by
          have : sep63.length = 63 := by decide
          omega)] at h62
        have hno : ∀ o, o < 62 → sep63.get? o ≠ some '【' := by decide
        exact hno _ ho h62

theorem splitOnL_sep63_append (a b : Str) (ha : '【' ∉ a) :
    splitOnL sep63 (a ++ (sep63 ++ b)) = a :: splitOnL sep63 b := by
  rw [splitOnL_of_some (by decide) (findSep_sep63_append a b ha)]
  congr 1
  · exact List.take_left a (sep63 ++ b)
  · rw [show a.length + sep63.length = (a ++ sep63).length from by simp,
      show a ++ (sep63 ++ b) = (a ++ sep63) ++ b from by simp, List.drop_left]

theorem findSep_sep63_none {l : Str} (h : '【' ∉ l) : findSep sep63 l = none :=
  findSep_none_of_not_mem (show '【' ∈ sep63 from by decide) h

theorem findSep_needle62_part (p b : Str) (hp : '\n' ∉ p) :
    findSep needle62 (p ++ '】' :: '\n' :: (needle62 ++ b)) = some (p.length + 2) := by
  have hrw : p ++ '】' :: '\n' :: (needle62 ++ b) =
      (p ++ ['】', '\n']) ++ (needle62 ++ b) := by simp
  apply findSep_eq_some_of (by decide)
  · rw [hrw, show p.length + 2 = (p ++ ['】', '\n']).length from by simp,
      List.drop_left]
    exact isPrefixOf_append_self needle62 b
  · intro j hj
    cases hx : needle62.isPrefixOf ((p ++ '】' :: '\n' :: (needle62 ++ b)).drop j)
    · rfl
    · exfalso
      have h60 := @isPrefixOf_get needle62 _ hx 60 (by decide)
      have h61 := @isPrefixOf_get needle62 _ hx 61 (by decide)
      rw [List.get?_drop,
        show needle62.get? 60 = some '\n' from by decide] at h60
      rw [List.get?_drop,
        show needle62.get? 61 = some '\n' from by decide] at h61
      rw [hrw] at h60 h61
      have hA : (p ++ ['】', '\n']).length = p.length + 2 := by simp
      have heq : ∀ o, o < 60 → needle62.get? o = some '=' := by decide
      have hn62 : needle62.length = 62 := by decide
      by_cases hc1 : j + 60 < p.length
      · rw [List.get?_append (by omega)] at h60
        rw [List.get?_append (by omega)] at h60
        exact hp (List.get?_mem h60)
      · by_cases hc2 : j + 60 = p.length
        · rw [List.get?_append (by omega), List.get?_append_right (by omega)] at h60
          rw [show j + 60 - p.length = 0 from by omega] at h60
          simp at h60
        · by_cases hc3 : j + 60 = p.length + 1
          · rw [List.get?_append_right (by omega), hA] at h61
            rw [List.get?_append (by omega)] at h61
            rw [show j + 61 - (p.length + 2) = 0 from by omega] at h61
            rw [heq 0 (by omega)] at h61
            simp at h61
          · rw [List.get?_append_right (by omega), hA] at h60
            rw [List.get?_append (by omega)] at h60
            rw [heq (j + 60 - (p.length + 2)) (by omega)] at h60
            simp at h60

theorem dropWhile_head_ne {c : Char} {l : Str} (h : l.head? ≠ some c) :
    l.dropWhile (· = c) = l := by
  cases l with
  | nil => rfl
  | cons d t =>
    have hd : d ≠ c := by
      intro hdc
      exact h (by rw [hdc]; rfl)
    rw [List.dropWhile_cons, if_neg (by simp [hd])]

theorem rstripChar_append_single (c : Char) (p : Str) (h : p.getLast? ≠ some c) :
    rstripChar c (p ++ [c]) = p := by
  unfold rstripChar
  rw [List.reverse_append]
  show (List.dropWhile (· = c) (c :: p.reverse)).reverse = p
  rw [List.dropWhile_cons, if_pos (by simp)]
  rw [dropWhile_head_ne (by rw [List.head?_reverse]; exact h)]
  exact List.reverse_reverse p

theorem not_mem_needle62 : '【' ∉ needle62 := by decide

theorem not_mem_diaryPart {d : Diary} (h1 : '【' ∉ diaryPath d)
    (h2 : '【' ∉ d.content) : '【' ∉ diaryPart d := by
  intro h
  unfold diaryPart at h
  rcases List.mem_append.1 h with hp | hr
  · exact h1 hp
  · rcases List.mem_cons.1 hr with h3 | h4
    · cases h3
    · rcases List.mem_cons.1 h4 with h5 | h6
      · cases h5
      · rcases List.mem_append.1 h6 with h7 | h8
        · exact not_mem_needle62 h7
        · rcases List.mem_append.1 h8 with h9 | h10
          · exact h2 h9
          · revert h10; decide

theorem not_mem_originalHeader {y count : Nat} {ts : Str} (hts : '【' ∉ ts) :
    '【' ∉ originalHeader y count ts := by
  have h1 : '【' ∉ natToChars y := natToChars_avoid (by decide)
  have h2 : '【' ∉ natToChars count := natToChars_avoid (by decide)
  have h3 : '【' ∉ eq60 := by decide
  have h4 : '【' ∉ "年日记原文合集".toList := by decide
  have h5 : '【' ∉ "生成时间: ".toList := by decide
  have h6 : '【' ∉ "共 ".toList := by decide
  have h7 : '【' ∉ " 篇日记".toList := by decide
  have h8 : ¬ ('【' = '\n') := by decide
  intro h
  unfold originalHeader at h
  simp only [List.mem_append, List.mem_cons] at h
  simp only [h1, h2, h3, h4, h5, h6, h7, h8, hts, or_false, false_or, or_self] at h
  exact absurd h (List.not_mem_nil _)

theorem parsePart_diaryPart (d : Diary)
    (hnl : '\n' ∉ diaryPath d) (hlast : (diaryPath d).getLast? ≠ some '】')
    (hstrip : stripStr d.content = d.content) :
    parsePart (diaryPart d) = some (reparsedDiary d) := by
  have hsplit0 : splitOnL ['\n'] (diaryPart d) =
      (diaryPath d ++ ['】']) :: splitOnL ['\n'] (needle62 ++ (d.content ++ ['\n', '\n'])) := by
    rw [show diaryPart d =
      (diaryPath d ++ ['】']) ++ '\n' :: (needle62 ++ (d.content ++ ['\n', '\n'])) from by
        unfold diaryPart; simp]
    apply splitOnL_char_append
    intro h
    rcases List.mem_append.1 h with h1 | h2
    · exact hnl h1
    · revert h2; decide
  have hfind : findSep needle62 (diaryPart d) = some ((diaryPath d).length + 2) :=
    findSep_needle62_part (diaryPath d) (d.content ++ ['\n', '\n']) hnl
  unfold parsePart
  rw [hsplit0, hfind]
  have hrs : rstripChar '】' (diaryPath d ++ ['】']) = diaryPath d :=
    rstripChar_append_single '】' (diaryPath d) hlast
  have hdrop : (diaryPart d).drop ((diaryPath d).length + 2 + 62) =
      d.content ++ ['\n', '\n'] := by
    rw [show diaryPart d =
      (diaryPath d ++ '】' :: '\n' :: needle62) ++ (d.content ++ ['\n', '\n']) from by
        unfold diaryPart; simp,
      show (diaryPath d).length + 2 + 62 =
        (diaryPath d ++ '】' :: '\n' :: needle62).length from by
        simp [needle62, eq60]]
    exact List.drop_left _ _
  show some (Diary.mk (lastSegment (rstripChar '】' (diaryPath d ++ ['】'])))
      (some (rstripChar '】' (diaryPath d ++ ['】'])))
      (stripStr ((diaryPart d).drop ((diaryPath d).length + 2 + 62))) [] []) =
    some (reparsedDiary d)
  rw [hdrop, hrs]
  rw [show stripStr (d.content ++ ['\n', '\n']) = d.content from
    strip_pad [] d.content ['\n', '\n'] hstrip (by simp) (by decide)]
  rfl

theorem splitOnL_sep63_blocks : ∀ (ds : List Diary) (head : Str), '【' ∉ head →
    (∀ d ∈ ds, '【' ∉ diaryPath d ∧ '【' ∉ d.content) →
    splitOnL sep63 (head ++ (ds.map diaryBlock).join) = head :: ds.map diaryPart := by
  intro ds
  induction ds with
  | nil =>
    intro head hh _
    rw [show (([] : List Diary).map diaryBlock).join = [] from rfl, List.append_nil]
    rw [splitOnL_of_none (by decide) (findSep_sep63_none hh)]
    rfl
  | cons d rest ih =>
    intro head hh hds
    have hstep : head ++ ((d :: rest).map diaryBlock).join =
        head ++ (sep63 ++ (diaryPart d ++ (rest.map diaryBlock).join)) := by
      simp only [List.map_cons, List.join_cons, diaryBlock_eq]
      simp
    rw [hstep, splitOnL_sep63_append head _ hh]
    have hpd : '【' ∉ diaryPart d :=
      not_mem_diaryPart (hds d (List.mem_cons_self d rest)).1
        (hds d (List.mem_cons_self d rest)).2
    rw [ih (diaryPart d) hpd (fun e he => hds e (List.mem_cons_of_mem d he))]
    rfl

theorem parse_parts (ds : List Diary)
    (hpath : ∀ d ∈ ds, '\n' ∉ diaryPath d ∧ (diaryPath d).getLast? ≠ some '】')
    (hcontent : ∀ d ∈ ds, stripStr d.content = d.content) :
    (ds.map diaryPart).filterMap parsePart = ds.map reparsedDiary := by
  induction ds with
  | nil => rfl
  | cons d rest ih =>
    simp only [List.map_cons, List.filterMap_cons]
    rw [parsePart_diaryPart d (hpath d (List.mem_cons_self d rest)).1
      (hpath d (List.mem_cons_self d rest)).2 (hcontent d (List.mem_cons_self d rest))]
    rw [ih (fun e he => hpath e (List.mem_cons_of_mem d he))
      (fun e he => hcontent e (List.mem_cons_of_mem d he))]

/-- C1 (amended): saving a year's diaries and loading them back reconstructs
the same ordered (path, content) pairs with empty timestamps, provided no
path contains a newline or the bracket 【 or ends with 】, no content contains
【 (the delimiter-collision limitation the design notes flag) or is changed by
whitespace stripping, and the timestamp contains no 【. -/
theorem original_diaries_round_trip (y : Nat) (ds : List Diary) (ts : Str) (fs : FS)
    (hpath : ∀ d ∈ ds, '\n' ∉ diaryPath d ∧ '【' ∉ diaryPath d ∧
      (diaryPath d).getLast? ≠ some '】')
    (hcontent : ∀ d ∈ ds, '【' ∉ d.content ∧ stripStr d.content = d.content)
    (hts : '【' ∉ ts) :
    load_diaries_from_file y (save_original_diaries_to_file y ds ts fs) =
      some (ds.map reparsedDiary) := by
  unfold load_diaries_from_file save_original_diaries_to_file
  rw [fsRead_write_self]
  show some (load_diaries_parse (originalFileContent y ds ts)) = _
  unfold load_diaries_parse originalFileContent
  rw [splitOnL_sep63_blocks ds (originalHeader y ds.length ts)
    (not_mem_originalHeader hts)
    (fun d hd => ⟨(hpath d hd).2.1, (hcontent d hd).1⟩)]
  rw [List.drop_one, List.tail_cons]
  rw [parse_parts ds (fun d hd => ⟨(hpath d hd).1, (hpath d hd).2.2⟩)
    (fun d hd => (hcontent d hd).2)]

/-- Counterexample to C1 as stated: a diary whose content has leading
whitespace does not survive the round trip verbatim — the loader strips it. -/
theorem original_diaries_round_trip_cx :
    load_diaries_from_file 2024
        (save_original_diaries_to_file 2024
          [⟨"f".toList, some ("p".toList), " hi".toList, [], []⟩] ("t".toList) []) =
      some [⟨"p".toList, some ("p".toList), "hi".toList, [], []⟩] ∧
      ("hi".toList : Str) ≠ " hi".toList := by
  constructor
  · decide
  · decide

/-- Concrete well-behaved diary used in the C1 witness. -/
def diaryGood : Diary :=
  ⟨"d".toList, some ("2023年1月1日".toList), "今天 happy".toList, [], []⟩

/-- Witness for C1 (amended): a concrete save/load round trip reconstructing
the entry with its path and content and empty timestamps. -/
theorem original_diaries_round_trip_witness :
    load_diaries_from_file 2023
        (save_original_diaries_to_file 2023 [diaryGood] ("20240101".toList) []) =
      some [reparsedDiary diaryGood] :=
  original_diaries_round_trip 2023 [diaryGood] ("20240101".toList) []
    (by decide) (by decide) (by decide)

/-! ## Orchestrator (`orchestrator.process_year_summaries`) -/

/-- Insertion sort used to model Python `sorted(keys)`. -/
def insertSorted (n : Nat) : List Nat → List Nat
  | [] => [n]
  | m :: rest => if n ≤ m then n :: m :: rest else m :: insertSorted n rest

/-- Model of `sorted(l)` for naturals. -/
def sortNats (l : List Nat) : List Nat := l.foldr insertSorted []

/-- Prompt template of `generate_monthly_summary`. -/
def monthlyPrompt (y m : Nat) (total_content : Str) : Str :=
  "请为以下".toList ++ natToChars y ++ "年".toList ++ natToChars m ++
    "月的日记内容生成摘要。\n\n要求：\n1. 总结这个月的主要事件和经历\n2. 提炼出关键的情感和思考\n3. 识别重要的变化和发展\n4. 保持客观和准确\n5. 使用中文输出\n6. 摘要长度控制在200-400字\n\n日记内容：\n\n".toList ++
    total_content ++ "\n\n请生成月度摘要：".toList

/-- Prompt template of `generate_yearly_summary_from_monthly`. -/
def yearlyFromMonthlyPrompt (y : Nat) (combined : Str) : Str :=
  "以下是".toList ++ natToChars y ++
    "年每个月的日记摘要，请基于这些月度摘要生成一个完整的年度总结。\n\n要求：\n1. 整合所有月度摘要的内容，总结这一年的主要事件和经历\n2. 提炼出关键的情感和思考\n3. 识别重要的成长和变化\n4. **重点分析：发现周期性的心理活动模式**\n   - 识别在不同月份中重复出现的情绪、思考或行为模式\n   - 分析这些周期性模式可能的触发因素（季节、特定事件、时间节点等）\n   - 总结这些周期性心理活动的特点和演变趋势\n5. 保持客观和准确\n6. 使用中文输出\n7. 摘要长度控制在1000-1500字\n\n月度摘要：\n".toList ++
    combined ++ "\n\n请生成完整的年度总结（包含周期性心理活动分析）：".toList

/-- Model of `generate_monthly_summary`: concatenate the month's entries,
issue one completion request through the retry wrapper, sleep 2s on success,
return a failure placeholder text on error. The completion adapter is the
deterministic `client`, mapping a prompt to its outcome. -/
def generate_monthly_summary (y m : Nat) (diaries : List Diary)
    (client : Str → Except Str Str) : Str × List Event :=
  let total_content := joinStr ("\n\n".toList) (diaries.map diaryHeaderText)
  let prompt := monthlyPrompt y m total_content
  match call_claude_with_retry (fun _ => client prompt) 3 with
  | (some (.ok s), evs) => (s, evs ++ [.sleepSec 2])
  | (some (.error e), evs) => ("Failed to generate summary: ".toList ++ e, evs)
  | (none, evs) => ("Failed to generate summary: ".toList, evs)

/-- Month-labelled concatenation of monthly summaries in ascending month
order, as built by `generate_yearly_summary_from_monthly`. -/
def combinedMonthly (y : Nat) (ms : List (Nat × Str)) : Str :=
  (sortNats (ms.map Prod.fst)).foldl (fun acc m =>
    acc ++ "\n\n【".toList ++ natToChars y ++ " Year ".toList ++ natToChars m ++
      " Month】\n".toList ++ (assocFind ms m).getD []) []

/-- Model of `generate_yearly_summary_from_monthly`. -/
def generate_yearly_summary_from_monthly (y : Nat) (ms : List (Nat × Str))
    (client : Str → Except Str Str) : Str × List Event :=
  let prompt := yearlyFromMonthlyPrompt y (combinedMonthly y ms)
  match call_claude_with_retry (fun _ => client prompt) 3 with
  | (some (.ok s), evs) => (s, evs ++ [.sleepSec 2])
  | (some (.error e), evs) => ("Failed to generate yearly summary: ".toList ++ e, evs)
  | (none, evs) => ("Failed to generate yearly summary: ".toList, evs)

/-- Content written by `save_summary_to_file` for a yearly summary. -/
def yearlyFileContent (y : Nat) (summary ts : Str) : Str :=
  natToChars y ++ "年日记摘要".toList ++ '\n' :: (eq50 ++ '\n' :: '\n' ::
    (summary ++ '\n' :: '\n' :: (eq50 ++ '\n' :: (genTimeLine ts ++ ['\n']))))

/-- Model of `save_summary_to_file`. -/
def save_summary_to_file (y : Nat) (summary ts : Str) (fs : FS) : FS :=
  fsWrite fs (.yearly y) (yearlyFileContent y summary ts)

/-- One month of `generate_monthly_summaries_for_year`: reuse an existing
non-empty cached summary, otherwise generate, record, and persist. -/
def genMonthlyStep (y : Nat) (month_diaries : List (Nat × List Diary))
    (client : Str → Except Str Str) (ts : Str)
    (st : List (Nat × Str) × FS × List Event) (m : Nat) :
    List (Nat × Str) × FS × List Event :=
  let (sums, fs, evs) := st
  if fsHas fs (.monthly y m) then
    match load_monthly_summary_from_file y m fs with
    | some s => if s.isEmpty then (sums, fs, evs) else (sums ++ [(m, s)], fs, evs)
    | none => (sums, fs, evs)
  else
    let r := generate_monthly_summary y m ((assocFind month_diaries m).getD []) client
    (sums ++ [(m, r.1)], save_monthly_summary_to_file y m r.1 ts fs,
      evs ++ r.2 ++ [.writeFile (.monthly y m)])

/-- Model of `generate_monthly_summaries_for_year`: months in ascending
order. -/
def generate_monthly_summaries_for_year (y : Nat)
    (month_diaries : List (Nat × List Diary)) (client : Str → Except Str Str)
    (ts : Str) (fs : FS) : List (Nat × Str) × FS × List Event :=
  (sortNats (month_diaries.map Prod.fst)).foldl
    (genMonthlyStep y month_diaries client ts) ([], fs, [])

/-- Cache-mode regrouping of a year's diaries by month (`if month:` drops
entries without a resolvable month). -/
def groupByMonth (year_diaries : List Diary) : List (Nat × List Diary) :=
  year_diaries.foldl (fun acc d =>
    match extract_year_month_from_path (diaryPath d) with
    | (_, some m) => assocAppend acc m d
    | _ => acc) []

/-- Model of `process_year_summaries`: an existing yearly summary file skips
the year entirely; otherwise monthly summaries are generated or loaded, then
the yearly summary is synthesized from them and persisted. A missing
`diaries_by_year[year]` entry (a `KeyError` in Python) is modelled as the
empty list; the skip branch never reads it. -/
def process_year_summaries (year : Nat) (diaries_by_year : List (Nat × List Diary))
    (diaries_by_year_month : List (Nat × List (Nat × List Diary)))
    (use_cache_only : Bool) (client : Str → Except Str Str) (ts : Str) (fs : FS) :
    FS × List Event :=
  if fsHas fs (.yearly year) then (fs, [])
  else
    let monthlyRes :=
      if use_cache_only then
        let year_diaries := (assocFind diaries_by_year year).getD []
        generate_monthly_summaries_for_year year (groupByMonth year_diaries) client ts fs
      else
        match assocFind diaries_by_year_month year with
        | some md => generate_monthly_summaries_for_year year md client ts fs
        | none => ([], fs, [])
    if monthlyRes.1.isEmpty then (monthlyRes.2.1, monthlyRes.2.2)
    else
      let yr := generate_yearly_summary_from_monthly year monthlyRes.1 client
      (save_summary_to_file year yr.1 ts monthlyRes.2.1,
        monthlyRes.2.2 ++ yr.2 ++ [.writeFile (.yearly year)])

/-- C3: when the yearly summary file for a year already exists,
`process_year_summaries` returns immediately: the filesystem is unchanged
(every yearly and monthly summary file is left intact) and no events — in
particular no completion requests and no file writes — are performed. -/
theorem process_year_summaries_skip (year : Nat)
    (diaries_by_year : List (Nat × List Diary))
    (diaries_by_year_month : List (Nat × List (Nat × List Diary)))
    (use_cache_only : Bool) (client : Str → Except Str Str) (ts : Str) (fs : FS)
    (h : fsHas fs (SummaryKey.yearly year) = true) :
    process_year_summaries year diaries_by_year diaries_by_year_month
      use_cache_only client ts fs = (fs, []) := by
  unfold process_year_summaries
  rw [if_pos h]

/-- Witness for C3 at a concrete filesystem already holding the 2023 yearly
summary. -/
theorem process_year_summaries_skip_witness :
    process_year_summaries 2023 [] [] true (fun _ => Except.ok []) ("t".toList)
      [(SummaryKey.yearly 2023, "s".toList)] =
      ([(SummaryKey.yearly 2023, "s".toList)], []) :=
  process_year_summaries_skip 2023 [] [] true (fun _ => Except.ok []) ("t".toList)
    [(SummaryKey.yearly 2023, "s".toList)] (by decide)
